import Mathlib

/-!
# UnoC-Easy: the interrupt-driven serial transport of `OnlySerial.h`

A shallow embedding of the ring-buffer transport of `src/OnlySerial.h` (and of
the thin wrappers of `src/SimpleSerial.h` that call it) together with the
properties its specification states.

Modelling conventions

* `char` values and the `uint16_t` heads are natural numbers.  Every head is
  reduced modulo a buffer size on each update, so for heads inside their buffer
  no intermediate value leaves the 16-bit range and the arithmetic over `Nat`
  is the machine arithmetic.  The baud divisor, where narrowing does matter, is
  reduced modulo `2 ^ 16` explicitly.
* The build-time macros `F_CPU`, `SER_TX_BUFFER_SIZE` and `SER_RX_BUFFER_SIZE`
  are the fields of `Config`.
* Global variables and the USART registers are the fields of `State`.  A
  `char*` argument is the memory it points to, a function from offsets to
  bytes.
* A foreground routine that can wait (`ser_putByte`, `ser_getByte` and their
  callers) takes an iteration budget and returns `Except State _`:
  `.ok` is a return, `.error s` says that the routine is still inside a loop
  after the budget was used up, the machine being in state `s`.  Interrupt
  handlers are total functions; an interrupt is a step of its own, never
  interleaved inside a modelled routine.
-/

namespace OnlySerial

/-- Build-time configuration: the three macros of `OnlySerial.h`. -/
structure Config where
  F_CPU : Nat
  SER_TX_BUFFER_SIZE : Nat
  SER_RX_BUFFER_SIZE : Nat

/-- The values `OnlySerial.h` defines when the user defines none. -/
def defaultConfig : Config :=
  { F_CPU := 16000000, SER_TX_BUFFER_SIZE := 16, SER_RX_BUFFER_SIZE := 16 }

/-- Global variables of `OnlySerial.h` and the USART0 registers it touches.
`UDRE0` is the hardware-owned "data register empty" flag of `UCSR0A`, `UDR0`
is the byte the receiver presents when the data register is read and
`udr0Out` is the sequence of bytes the program wrote to the data register. -/
structure State where
  ser_rxBuffer : Nat → Nat
  ser_txBuffer : Nat → Nat
  ser_txReadHead : Nat
  ser_txWriteHead : Nat
  ser_rxReadHead : Nat
  ser_rxWriteHead : Nat
  UBRR0 : Nat
  UCSR0A : Nat
  UCSR0B : Nat
  UCSR0C : Nat
  UDRE0 : Bool
  UDR0 : Nat
  udr0Out : List Nat

/-- Array store `buf[i] = v`. -/
def upd (buf : Nat → Nat) (i v : Nat) : Nat → Nat :=
  fun j => if j = i then v else buf j

/-- Bit number of "RX complete interrupt enable" in `UCSR0B`.  This and the
five bit numbers below are those of the ATmega328P (`avr/io.h`, which is not
part of the repository). -/
def RXCIE0 : Nat := 7

/-- Bit number of "TX complete interrupt enable" in `UCSR0B`. -/
def TXCIE0 : Nat := 6

/-- Bit number of "receiver enable" in `UCSR0B`. -/
def RXEN0 : Nat := 4

/-- Bit number of "transmitter enable" in `UCSR0B`. -/
def TXEN0 : Nat := 3

/-- Bit number of character-size bit 0 in `UCSR0C`. -/
def UCSZ00 : Nat := 1

/-- Bit number of character-size bit 1 in `UCSR0C`. -/
def UCSZ01 : Nat := 2

/-- `SerialBegin_baud`.  The divisor is computed in `unsigned long long`
(`F_CPU` carries the `ULL` suffix) and narrowed to the `uint16_t ubrrValue`.
A zero baud rate divides by zero, which the model reports as `none`. -/
def SerialBegin_baud (c : Config) (baudRate : Nat) (s : State) : Option State :=
  if baudRate = 0 then none
  else
    let ubrrValue := ((c.F_CPU / 16 / baudRate + 2 ^ 64 - 1) % 2 ^ 64) % 2 ^ 16
    some { s with
      UBRR0 := ubrrValue
      ser_txReadHead := 0
      ser_txWriteHead := 0
      ser_rxReadHead := 0
      ser_rxWriteHead := 0
      UCSR0A := 0
      UCSR0B := 2 ^ RXCIE0 ||| 2 ^ TXCIE0 ||| 2 ^ RXEN0 ||| 2 ^ TXEN0
      UCSR0C := 2 ^ UCSZ00 ||| 2 ^ UCSZ01 }

/-- `SerialBegin`. -/
def SerialBegin (c : Config) (s : State) : Option State :=
  SerialBegin_baud c 9600 s

/-- `ser_writeByte`: hand the next queued byte to the data register. -/
def ser_writeByte (c : Config) (s : State) : State :=
  if s.ser_txReadHead ≠ s.ser_txWriteHead then
    { s with
      udr0Out := s.udr0Out ++ [s.ser_txBuffer s.ser_txReadHead]
      ser_txReadHead := (s.ser_txReadHead + 1) % c.SER_TX_BUFFER_SIZE }
  else s

/-- `ser_readByte`: store the received byte; both heads are reduced modulo
`SER_TX_BUFFER_SIZE`, as in the source. -/
def ser_readByte (c : Config) (s : State) : State :=
  let s1 := { s with ser_rxBuffer := upd s.ser_rxBuffer s.ser_rxWriteHead s.UDR0 }
  let s2 := { s1 with ser_rxWriteHead := (s1.ser_rxWriteHead + 1) % c.SER_TX_BUFFER_SIZE }
  if s2.ser_rxWriteHead = s2.ser_rxReadHead then
    { s2 with ser_rxReadHead := (s2.ser_rxReadHead + 1) % c.SER_TX_BUFFER_SIZE }
  else s2

/-- `ISR(USART_RX_vect)`, the receiver having latched byte `b`. -/
def USART_RX_vect (c : Config) (b : Nat) (s : State) : State :=
  ser_readByte c { s with UDR0 := b }

/-- `ISR(USART_TX_vect)`. -/
def USART_TX_vect (c : Config) (s : State) : State :=
  ser_writeByte c s

/-- `ser_putByte`.  One unit of `fuel` is one pass of the `do … while` wait
loop; the loop is left when the snapshot does not show a full buffer.  The
cast `(int)(wHead + 1)` of the loop condition is the identity on heads below
`2 ^ 15`. -/
def ser_putByte (c : Config) : Nat → State → Nat → Except State State
  | 0, s, _ => .error s
  | fuel + 1, s, byte =>
    let wHead := s.ser_txWriteHead
    let rHead := s.ser_txReadHead
    if (wHead + 1) % c.SER_TX_BUFFER_SIZE = rHead then ser_putByte c fuel s byte
    else
      let s1 := { s with ser_txBuffer := upd s.ser_txBuffer s.ser_txWriteHead byte }
      let s2 := { s1 with ser_txWriteHead := (wHead + 1) % c.SER_TX_BUFFER_SIZE }
      .ok (if s2.UDRE0 then ser_writeByte c s2 else s2)

/-- `ser_getByte`.  One unit of `fuel` is one pass of the wait loop; the
result carries the byte stored through `pByte`. -/
def ser_getByte (c : Config) : Nat → State → Except State (State × Nat)
  | 0, s => .error s
  | fuel + 1, s =>
    let wHead := s.ser_rxWriteHead
    let rHead := s.ser_rxReadHead
    if rHead = wHead then ser_getByte c fuel s
    else
      .ok ({ s with ser_rxReadHead := (rHead + 1) % c.SER_RX_BUFFER_SIZE },
           s.ser_rxBuffer rHead)

/-- `SerialPeek`; a null `value` is `none`.  Returns the `int` result and the
content of `*value` afterwards. -/
def SerialPeek (s : State) (value : Option Nat) : Nat × Option Nat :=
  if s.ser_rxReadHead = s.ser_rxWriteHead then (0, value)
  else (1, value.map fun _ => s.ser_rxBuffer s.ser_rxReadHead)

/-- Loop of `SerialWrite`: `k` iterations remain, the loop variable is `i`. -/
def SerialWrite_loop (c : Config) (fuel : Nat) (pByte : Nat → Nat) :
    Nat → Nat → State → Except State State
  | 0, _, s => .ok s
  | k + 1, i, s =>
    match ser_putByte c fuel s (pByte i) with
    | .error e => .error e
    | .ok s' => SerialWrite_loop c fuel pByte k (i + 1) s'

/-- `SerialWrite`. -/
def SerialWrite (c : Config) (fuel : Nat) (s : State) (pByte : Nat → Nat) (count : Nat) :
    Except State State :=
  SerialWrite_loop c fuel pByte count 0 s

/-- Loop of `SerialWrite_delim` with `pByte` advanced by `pos`; `scan` bounds
the number of passes of the `do … while`. -/
def SerialWrite_delim_loop (c : Config) (fuel : Nat) (pByte : Nat → Nat) (delimiter : Nat) :
    Nat → Nat → State → Except State State
  | 0, _, s => .error s
  | scan + 1, pos, s =>
    match ser_putByte c fuel s (pByte pos) with
    | .error e => .error e
    | .ok s' =>
      if pByte (pos + 1) ≠ delimiter then
        SerialWrite_delim_loop c fuel pByte delimiter scan (pos + 1) s'
      else .ok s'

/-- `SerialWrite_delim`. -/
def SerialWrite_delim (c : Config) (scan fuel : Nat) (s : State) (pByte : Nat → Nat)
    (delimiter : Nat) : Except State State :=
  SerialWrite_delim_loop c fuel pByte delimiter scan 0 s

/-- Loop of `SerialRead_count`. -/
def SerialRead_count_loop (c : Config) (fuel : Nat) :
    Nat → Nat → State → (Nat → Nat) → Except State (State × (Nat → Nat))
  | 0, _, s, pBuffer => .ok (s, pBuffer)
  | k + 1, i, s, pBuffer =>
    match ser_getByte c fuel s with
    | .error e => .error e
    | .ok (s', b) => SerialRead_count_loop c fuel k (i + 1) s' (upd pBuffer i b)

/-- `SerialRead_count`. -/
def SerialRead_count (c : Config) (fuel : Nat) (s : State) (pBuffer : Nat → Nat) (len : Nat) :
    Except State (State × (Nat → Nat)) :=
  SerialRead_count_loop c fuel len 0 s pBuffer

/-- Loop of `SerialRead_delim`: `k` iterations remain before `i` reaches
`lenMax`. -/
def SerialRead_delim_loop (c : Config) (fuel : Nat) (lenMax delim : Nat) :
    Nat → Nat → State → (Nat → Nat) → Except State (State × (Nat → Nat) × Nat)
  | 0, _, s, pBuffer => .ok (s, pBuffer, lenMax)
  | k + 1, i, s, pBuffer =>
    match ser_getByte c fuel s with
    | .error e => .error e
    | .ok (s', b) =>
      let pBuffer' := upd pBuffer i b
      if pBuffer' i = delim then .ok (s', pBuffer', i)
      else SerialRead_delim_loop c fuel lenMax delim k (i + 1) s' pBuffer'

/-- `SerialRead_delim`. -/
def SerialRead_delim (c : Config) (fuel : Nat) (s : State) (pBuffer : Nat → Nat)
    (lenMax delim : Nat) : Except State (State × (Nat → Nat) × Nat) :=
  SerialRead_delim_loop c fuel lenMax delim lenMax 0 s pBuffer

/-- Loop of `SerialRead_all`: `k` iterations remain before `i` reaches
`lenMax`. -/
def SerialRead_all_loop (c : Config) (fuel : Nat) :
    Nat → Nat → State → (Nat → Nat) → Except State (State × (Nat → Nat) × Nat)
  | 0, i, s, pBuffer => .ok (s, pBuffer, i)
  | k + 1, i, s, pBuffer =>
    if (SerialPeek s none).1 ≠ 0 then
      match ser_getByte c fuel s with
      | .error e => .error e
      | .ok (s', b) => SerialRead_all_loop c fuel k (i + 1) s' (upd pBuffer i b)
    else .ok (s, pBuffer, i)

/-- `SerialRead_all`. -/
def SerialRead_all (c : Config) (fuel : Nat) (s : State) (pBuffer : Nat → Nat) (lenMax : Nat) :
    Except State (State × (Nat → Nat) × Nat) :=
  SerialRead_all_loop c fuel lenMax 0 s pBuffer

/-! ## Specification vocabulary -/

/-- Number of unread slots of a ring of `cap` slots with read head `r` and
write head `w`. -/
def ringCount (cap r w : Nat) : Nat := (w + cap - r) % cap

/-- The unread bytes of a ring, oldest first: the slots from the read head up
to, not including, the write head. -/
def ringUnread (cap : Nat) (buf : Nat → Nat) (r w : Nat) : List Nat :=
  (List.range (ringCount cap r w)).map fun i => buf ((r + i) % cap)

/-- Unread bytes of the RX buffer, oldest first. -/
def rxUnread (c : Config) (s : State) : List Nat :=
  ringUnread c.SER_RX_BUFFER_SIZE s.ser_rxBuffer s.ser_rxReadHead s.ser_rxWriteHead

/-- Bytes queued in the TX buffer and not yet written to `UDR0`, oldest
first. -/
def txPending (c : Config) (s : State) : List Nat :=
  ringUnread c.SER_TX_BUFFER_SIZE s.ser_txBuffer s.ser_txReadHead s.ser_txWriteHead

/-- The last `m` elements of a list. -/
def lastN (m : Nat) (l : List Nat) : List Nat := l.drop (l.length - m)

/-- The memory `p` after the bytes of `l` were stored at offsets `i`, `i + 1`,
… in that order. -/
def writeList (p : Nat → Nat) : Nat → List Nat → Nat → Nat
  | _, [] => p
  | i, b :: l => writeList (upd p i b) (i + 1) l

/-- The RX interrupt fires once per byte of `bytes`, in order, with nothing
else in between. -/
def arriveAll (c : Config) (bytes : List Nat) (s : State) : State :=
  bytes.foldl (fun t b => USART_RX_vect c b t) s

/-- Events on the receive side: the RX interrupt delivering a byte, and a
foreground call of `ser_getByte`. -/
inductive RxEvent where
  | arrive (b : Nat)
  | dequeue

/-- One receive-side event; the second component collects the bytes
`ser_getByte` returned so far. -/
def rxStep (c : Config) (fuel : Nat) (x : State × List Nat) :
    RxEvent → Except State (State × List Nat)
  | .arrive b => .ok (USART_RX_vect c b x.1, x.2)
  | .dequeue =>
    match ser_getByte c fuel x.1 with
    | .error e => .error e
    | .ok (s', b) => .ok (s', x.2 ++ [b])

/-- A sequence of receive-side events, run in order. -/
def rxRun (c : Config) (fuel : Nat) : List RxEvent → State × List Nat →
    Except State (State × List Nat)
  | [], x => .ok x
  | e :: es, x =>
    match rxStep c fuel x e with
    | .error s => .error s
    | .ok y => rxRun c fuel es y

/-- The bytes that arrived, in arrival order. -/
def arrivals : List RxEvent → List Nat
  | [] => []
  | .arrive b :: es => b :: arrivals es
  | .dequeue :: es => arrivals es

/-- Number of `ser_getByte` calls in an event sequence. -/
def dequeues : List RxEvent → Nat
  | [] => 0
  | .arrive _ :: es => dequeues es
  | .dequeue :: es => dequeues es + 1

/-- The interleavings the FIFO property speaks about, `n` bytes being
outstanding (arrived and not yet dequeued) at the start: an arrival never
takes the number of outstanding bytes above `cap - 1`, and `ser_getByte` is
only called while a byte is outstanding. -/
def rxAdmissible (cap : Nat) : Nat → List RxEvent → Bool
  | _, [] => true
  | n, .arrive _ :: es => decide (n + 1 ≤ cap - 1) && rxAdmissible cap (n + 1) es
  | n, .dequeue :: es => decide (0 < n) && rxAdmissible cap (n - 1) es

/-- Events on the transmit side: a foreground call `ser_putByte(b)` made while
the hardware reports `UDRE0 = udre`, and the TX interrupt. -/
inductive TxEvent where
  | put (b : Nat) (udre : Bool)
  | txInterrupt

/-- One transmit-side event. -/
def txStep (c : Config) (fuel : Nat) (s : State) : TxEvent → Except State State
  | .put b udre => ser_putByte c fuel { s with UDRE0 := udre } b
  | .txInterrupt => .ok (USART_TX_vect c s)

/-- A sequence of transmit-side events, run in order. -/
def txRun (c : Config) (fuel : Nat) : List TxEvent → State → Except State State
  | [], s => .ok s
  | e :: es, s =>
    match txStep c fuel s e with
    | .error t => .error t
    | .ok t => txRun c fuel es t

/-- The bytes passed to `ser_putByte`, in call order. -/
def enqueued : List TxEvent → List Nat
  | [] => []
  | .put b _ :: es => b :: enqueued es
  | .txInterrupt :: es => enqueued es

/-- The TX buffer is full in the sense of the wait loop of `ser_putByte`. -/
def txFull (c : Config) (s : State) : Bool :=
  decide ((s.ser_txWriteHead + 1) % c.SER_TX_BUFFER_SIZE = s.ser_txReadHead)

/-- Every `ser_putByte` of the event sequence is called in a state in which
the TX buffer is not full. -/
def txAdmissible (c : Config) (fuel : Nat) : List TxEvent → State → Bool
  | [], _ => true
  | e :: es, s =>
    (match e with
      | .put _ _ => !txFull c s
      | .txInterrupt => true) &&
    (match txStep c fuel s e with
      | .error _ => true
      | .ok t => txAdmissible c fuel es t)

/-- The calls `ser_putByte(b)` for the bytes `b` of a list, made in order. -/
def putAll (c : Config) (fuel : Nat) : List Nat → State → Except State State
  | [], s => .ok s
  | b :: bs, s =>
    match ser_putByte c fuel s b with
    | .error e => .error e
    | .ok s' => putAll c fuel bs s'

/-- The `SerialWrite` call as transmit-side events: one `ser_putByte` per
index, each seeing the flag `udre`. -/
def writeEvents (pByte : Nat → Nat) (count : Nat) (udre : Bool) : List TxEvent :=
  (List.range count).map fun i => TxEvent.put (pByte i) udre

/-- The machine state at the end of a run, whether the routine returned or is
still waiting. -/
def finalState {β : Type} : Except State (State × β) → State
  | .ok x => x.1
  | .error s => s

/-- A machine state before `SerialBegin_baud` ran: all memory and registers
zero, transmitter idle. -/
def resetState : State :=
  { ser_rxBuffer := fun _ => 0, ser_txBuffer := fun _ => 0,
    ser_txReadHead := 0, ser_txWriteHead := 0, ser_rxReadHead := 0, ser_rxWriteHead := 0,
    UBRR0 := 0, UCSR0A := 0, UCSR0B := 0, UCSR0C := 0,
    UDRE0 := true, UDR0 := 0, udr0Out := [] }

/-- The state `SerialBegin` leaves when called on `resetState` under the
default configuration. -/
def bootState : State :=
  (SerialBegin defaultConfig resetState).getD resetState

/-- The machine state at the end of a run of a routine that returns nothing,
whether it returned or is still waiting. -/
def stateOf : Except State State → State
  | .ok s => s
  | .error s => s

/-- The transmit side of `t` is that of `s`: TX buffer, TX heads, the bytes
written to `UDR0` and the `UDRE0` flag agree. -/
def TxSame (s t : State) : Prop :=
  t.ser_txBuffer = s.ser_txBuffer ∧ t.ser_txReadHead = s.ser_txReadHead ∧
  t.ser_txWriteHead = s.ser_txWriteHead ∧ t.udr0Out = s.udr0Out ∧ t.UDRE0 = s.UDRE0

/-- The receive side of `t` is that of `s`: RX buffer and RX heads agree. -/
def RxSame (s t : State) : Prop :=
  t.ser_rxBuffer = s.ser_rxBuffer ∧ t.ser_rxReadHead = s.ser_rxReadHead ∧
  t.ser_rxWriteHead = s.ser_rxWriteHead

/-- The loopback wiring: every byte the program wrote to `UDR0` after the
first `n` comes back as one RX interrupt, in the order written. -/
def loopback (c : Config) (n : Nat) (s : State) : State :=
  arriveAll c (s.udr0Out.drop n) s

/-- Loop of `SerialWrite` run against the loopback hardware: the transmitter
is ready at every `ser_putByte` (`UDRE0` set), and what a `ser_putByte` wrote
to `UDR0` is received back before the next one. -/
def SerialWrite_loopback_loop (c : Config) (fuel : Nat) (pByte : Nat → Nat) :
    Nat → Nat → State → Except State State
  | 0, _, s => .ok s
  | k + 1, i, s =>
    match ser_putByte c fuel { s with UDRE0 := true } (pByte i) with
    | .error e => .error e
    | .ok s' =>
      SerialWrite_loopback_loop c fuel pByte k (i + 1) (loopback c s.udr0Out.length s')

/-- `SerialWrite` run against the loopback hardware. -/
def SerialWrite_loopback (c : Config) (fuel : Nat) (s : State) (pByte : Nat → Nat)
    (count : Nat) : Except State State :=
  SerialWrite_loopback_loop c fuel pByte count 0 s

/-- Conversion of a `uint16_t` value to the 16-bit `int` that the readers of
`SimpleSerial.h` return (two's complement, as avr-gcc converts). -/
def toInt16 (n : Nat) : Int :=
  if n % 65536 < 32768 then ((n % 65536 : Nat) : Int) else ((n % 65536 : Nat) : Int) - 65536

/-- `SerialReadStr` of `SimpleSerial.h`, with `SSER_PEEK` and
`SSER_READ_DELIM` bound to `SerialPeek` and `SerialRead_delim` as
`OnlySerial.h` configures them. -/
def SerialReadStr (c : Config) (fuel : Nat) (s : State) (pChar : Nat → Nat) (maxRead : Nat) :
    Except State (State × (Nat → Nat) × Int) :=
  if (SerialPeek s none).1 ≠ 0 then
    match SerialRead_delim c fuel s pChar maxRead 0 with
    | .error e => .error e
    | .ok (s', p', n) => .ok (s', p', toInt16 n)
  else .ok (s, pChar, 0)

/-- `SerialReadLine` of `SimpleSerial.h`; the delimiter is `'\n'`, 10. -/
def SerialReadLine (c : Config) (fuel : Nat) (s : State) (pChar : Nat → Nat) (maxRead : Nat) :
    Except State (State × (Nat → Nat) × Int) :=
  if (SerialPeek s none).1 ≠ 0 then
    match SerialRead_delim c fuel s pChar maxRead 10 with
    | .error e => .error e
    | .ok (s', p', n) => .ok (s', p', toInt16 n)
  else .ok (s, pChar, 0)

/-- One pass of the wait loop of `ser_getByte`: the snapshot `(wHead, rHead)`
taken in the first atomic block, or `none` when it shows an empty buffer and
the loop goes round again. -/
def ser_getByte_snapshot (s : State) : Option (Nat × Nat) :=
  let wHead := s.ser_rxWriteHead
  let rHead := s.ser_rxReadHead
  if rHead = wHead then none else some (wHead, rHead)

/-- The second atomic block of `ser_getByte`, run with the `rHead` of an
earlier snapshot: the byte stored through `pByte` and the new read head. -/
def ser_getByte_commit (c : Config) (rHead : Nat) (s : State) : State × Nat :=
  ({ s with ser_rxReadHead := (rHead + 1) % c.SER_RX_BUFFER_SIZE }, s.ser_rxBuffer rHead)

/-- Store `mem[i] = v` in memory addressed relative to a local buffer; an
index below 0 or beyond the buffer is memory next to it. -/
def updI (mem : Int → Nat) (i : Int) (v : Nat) : Int → Nat :=
  fun j => if j = i then v else mem j

/-- `SSER_4BIT_LO` on the bit pattern (0..255) of a `char`.  For a signed
`char` the promotion to `int` only adds sign bits above bit 7, which the mask
clears, so the result is that of the bit pattern. -/
def SSER_4BIT_LO (byte : Nat) : Nat := byte &&& 0x0F

/-- `SSER_4BIT_HI` on the bit pattern (0..255) of a `char`; see
`SSER_4BIT_LO` for signed `char`. -/
def SSER_4BIT_HI (byte : Nat) : Nat := (byte &&& 0xF0) >>> 4

/-- `sser_4bitChar`: store the character for `byte` at `*pTarget`.  The
arithmetic is that of the source for `byte < 128`, which covers every call in
`SimpleSerial.h` made with a base of at most 128. -/
def sser_4bitChar (byte : Nat) (pTarget : Int) (mem : Int → Nat) : Int → Nat :=
  updI mem pTarget ((if byte < 10 then byte + 48 else byte - 10 + 65) % 256)

/-- `sser_uiToChar`, with `*ppBuffer` as the index `pBuffer` into `mem`; the
result is the memory and `*ppBuffer` afterwards.  One unit of `fuel` is one
pass of the `do … while`; a zero `base` divides by zero (`none`). -/
def sser_uiToChar : Nat → Nat → Nat → (Int → Nat) → Int → Option ((Int → Nat) × Int)
  | 0, _, _, _, _ => none
  | fuel + 1, input, base, mem, pBuffer =>
    if base = 0 then none
    else
      let workNumber := input
      let input' := input / base
      let output := (workNumber - base * input') % 256
      let mem' := sser_4bitChar output pBuffer mem
      let pBuffer' := pBuffer - 1
      if input' ≠ 0 then sser_uiToChar fuel input' base mem' pBuffer'
      else some (mem', pBuffer')

/-- The local `char buffer[6] = {0, 0, 0, 0, 0, 0}` of `SerialPrintInt` and
`SerialPrintUInt` at indices 0..5, inside the stack memory `stack`. -/
def printBuffer (stack : Int → Nat) : Int → Nat :=
  fun i => if 0 ≤ i ∧ i < 6 then 0 else stack i

/-- `abs(input)` passed as the `uint16_t` argument of `sser_uiToChar`; for
`-32768` this is 32768, the value avr-libc's `abs` yields after conversion. -/
def abs16 (input : Int) : Nat := input.natAbs % 65536

/-- The formatting part of `SerialPrintInt`: the memory after the digits and,
for a negative input, the `'-'` (45) were stored, and the pointer handed to
`SSER_WRITE_DELIM`.  For a negative input that pointer is also the index at
which `'-'` was stored.  Sixteen passes are enough for any 16-bit input. -/
def SerialPrintInt_format (stack : Int → Nat) (input : Int) : Option ((Int → Nat) × Int) :=
  match sser_uiToChar 16 (abs16 input) 10 (printBuffer stack) 4 with
  | none => none
  | some (mem, pos) =>
    if input < 0 then some (updI mem pos 45, pos)
    else some (mem, pos + 1)

/-- `SerialPrintInt` of `SimpleSerial.h`. -/
def SerialPrintInt (c : Config) (scan fuel : Nat) (s : State) (stack : Int → Nat)
    (input : Int) : Except State State :=
  match SerialPrintInt_format stack input with
  | none => .error s
  | some (mem, start) => SerialWrite_delim c scan fuel s (fun j => mem (start + j)) 0

/-- `SerialPrintUInt` of `SimpleSerial.h`. -/
def SerialPrintUInt (c : Config) (scan fuel : Nat) (s : State) (stack : Int → Nat)
    (input : Nat) : Except State State :=
  match sser_uiToChar 16 input 10 (printBuffer stack) 4 with
  | none => .error s
  | some (mem, pos) => SerialWrite_delim c scan fuel s (fun j => mem (pos + 1 + j)) 0

/-- `SerialPrintHex` of `SimpleSerial.h`, on the bit pattern of `byte`; the
local buffer starts as `{'0', 'x', '?', '?'}`. -/
def SerialPrintHex (c : Config) (fuel : Nat) (s : State) (byte : Nat) : Except State State :=
  let buffer : Int → Nat := fun i =>
    if i = 0 then 48 else if i = 1 then 120 else if i = 2 then 63 else if i = 3 then 63 else 0
  let buffer1 := sser_4bitChar (SSER_4BIT_HI byte) 2 buffer
  let buffer2 := sser_4bitChar (SSER_4BIT_LO byte) 3 buffer1
  SerialWrite c fuel s (fun j => buffer2 j) 4

/-- The characters `0`-`9` and `A`-`F`. -/
def isHexChar (ch : Nat) : Bool :=
  (decide (48 ≤ ch) && decide (ch ≤ 57)) || (decide (65 ≤ ch) && decide (ch ≤ 70))

/-- The value of a hexadecimal digit character. -/
def hexValue (ch : Nat) : Nat := if ch ≤ 57 then ch - 48 else ch - 55

/-- The number a string of decimal digit characters denotes. -/
def decimalValue (l : List Nat) : Nat := l.foldl (fun a ch => 10 * a + (ch - 48)) 0

/-- The digit characters the loop of `sser_uiToChar` produces in base 10,
most significant first. -/
def uiChars : Nat → Nat → List Nat
  | 0, _ => []
  | fuel + 1, n => (if n / 10 ≠ 0 then uiChars fuel (n / 10) else []) ++ [n % 10 + 48]

/-! ## Ring arithmetic -/

theorem mod_cases (x cap : Nat) (hx : x < 2 * cap) :
    (x < cap ∧ x % cap = x) ∨ (cap ≤ x ∧ x % cap = x - cap) := by
  rcases Nat.lt_or_ge x cap with h | h
  · exact Or.inl ⟨h, Nat.mod_eq_of_lt h⟩
  · refine Or.inr ⟨h, ?_⟩
    rw [Nat.mod_eq_sub_mod h, Nat.mod_eq_of_lt (by omega)]

theorem ringCount_lt {cap : Nat} (r w : Nat) (hcap : 0 < cap) : ringCount cap r w < cap :=
  Nat.mod_lt _ hcap

theorem ringCount_cases {cap r w : Nat} (hr : r < cap) (hw : w < cap) :
    (r ≤ w ∧ ringCount cap r w = w - r) ∨ (w < r ∧ ringCount cap r w = w + cap - r) := by
  unfold ringCount
  rcases mod_cases (w + cap - r) cap (by omega) with ⟨h1, h2⟩ | ⟨h1, h2⟩
  · right; exact ⟨by omega, h2⟩
  · left; exact ⟨by omega, by omega⟩

theorem ringCount_eq_zero_iff {cap r w : Nat} (hr : r < cap) (hw : w < cap) :
    ringCount cap r w = 0 ↔ r = w := by
  rcases ringCount_cases hr hw with ⟨h1, h2⟩ | ⟨h1, h2⟩ <;> omega

theorem ringUnread_length (cap : Nat) (buf : Nat → Nat) (r w : Nat) :
    (ringUnread cap buf r w).length = ringCount cap r w := by
  simp [ringUnread]

theorem ring_index {cap r w : Nat} (hr : r < cap) (hw : w < cap) :
    (r + ringCount cap r w) % cap = w := by
  rcases ringCount_cases hr hw with ⟨h1, h2⟩ | ⟨h1, h2⟩ <;>
  rcases mod_cases (r + ringCount cap r w) cap (by omega) with ⟨h3, h4⟩ | ⟨h3, h4⟩ <;>
  omega

theorem ring_index_ne {cap r w i : Nat} (hr : r < cap) (hw : w < cap)
    (hi : i < ringCount cap r w) : (r + i) % cap ≠ w := by
  rcases ringCount_cases hr hw with ⟨h1, h2⟩ | ⟨h1, h2⟩ <;>
  rcases mod_cases (r + i) cap (by omega) with ⟨h3, h4⟩ | ⟨h3, h4⟩ <;>
  omega

theorem ringCount_push {cap r w : Nat} (hr : r < cap) (hw : w < cap)
    (hroom : ringCount cap r w + 1 < cap) :
    (w + 1) % cap ≠ r ∧ ringCount cap r ((w + 1) % cap) = ringCount cap r w + 1 := by
  have hw' : (w + 1) % cap < cap := Nat.mod_lt _ (by omega)
  rcases ringCount_cases hr hw with ⟨h1, h2⟩ | ⟨h1, h2⟩ <;>
  rcases ringCount_cases hr hw' with ⟨h5, h6⟩ | ⟨h5, h6⟩ <;>
  rcases mod_cases (w + 1) cap (by omega) with ⟨h3, h4⟩ | ⟨h3, h4⟩ <;>
  omega

theorem ringCount_push_full {cap r w : Nat} (hr : r < cap) (hw : w < cap)
    (hfull : ringCount cap r w + 1 = cap) : (w + 1) % cap = r := by
  rcases ringCount_cases hr hw with ⟨h1, h2⟩ | ⟨h1, h2⟩ <;>
  rcases mod_cases (w + 1) cap (by omega) with ⟨h3, h4⟩ | ⟨h3, h4⟩ <;>
  omega

theorem ringCount_pop {cap r w : Nat} (hr : r < cap) (hw : w < cap) (hne : r ≠ w) :
    ringCount cap r w = ringCount cap ((r + 1) % cap) w + 1 := by
  have hr' : (r + 1) % cap < cap := Nat.mod_lt _ (by omega)
  rcases ringCount_cases hr hw with ⟨h1, h2⟩ | ⟨h1, h2⟩ <;>
  rcases ringCount_cases hr' hw with ⟨h5, h6⟩ | ⟨h5, h6⟩ <;>
  rcases mod_cases (r + 1) cap (by omega) with ⟨h3, h4⟩ | ⟨h3, h4⟩ <;>
  omega

theorem ringUnread_pop {cap r w : Nat} (buf : Nat → Nat) (hr : r < cap) (hw : w < cap)
    (hne : r ≠ w) :
    ringUnread cap buf r w = buf r :: ringUnread cap buf ((r + 1) % cap) w := by
  unfold ringUnread
  rw [ringCount_pop hr hw hne, List.range_succ_eq_map, List.map_cons, List.map_map]
  congr 1
  · simp [Nat.mod_eq_of_lt hr]
  · apply List.map_congr_left
    intro i _
    simp only [Function.comp, Nat.succ_eq_add_one]
    rw [Nat.mod_add_mod]
    congr 2
    omega

theorem ringUnread_upd {cap r w : Nat} (buf : Nat → Nat) (b : Nat) (hr : r < cap)
    (hw : w < cap) (w' : Nat) (hle : ringCount cap r w' ≤ ringCount cap r w) :
    ringUnread cap (upd buf w b) r w' = ringUnread cap buf r w' := by
  unfold ringUnread
  apply List.map_congr_left
  intro i hi
  have hi' : i < ringCount cap r w := by
    have := List.mem_range.mp hi
    omega
  simp [upd, ring_index_ne hr hw hi']

theorem ringUnread_push {cap r w : Nat} (buf : Nat → Nat) (b : Nat) (hr : r < cap)
    (hw : w < cap) (hroom : ringCount cap r w + 1 < cap) :
    ringUnread cap (upd buf w b) r ((w + 1) % cap) = ringUnread cap buf r w ++ [b] := by
  have h := (ringCount_push hr hw hroom).2
  have hold := ringUnread_upd buf b hr hw w (Nat.le_refl _)
  unfold ringUnread at hold ⊢
  rw [h, List.range_succ, List.map_append, hold]
  simp [upd, ring_index hr hw]

/-! ## The receive ring -/

theorem lastN_of_le {m : Nat} {l : List Nat} (h : l.length ≤ m) : lastN m l = l := by
  unfold lastN
  rw [Nat.sub_eq_zero_of_le h, List.drop_zero]

theorem lastN_length (m : Nat) (l : List Nat) : (lastN m l).length = min m l.length := by
  unfold lastN
  rw [List.length_drop]
  omega

theorem lastN_append_lastN (m : Nat) (l r : List Nat) :
    lastN m (lastN m l ++ r) = lastN m (l ++ r) := by
  unfold lastN
  have h1 : l.length - m ≤ l.length := Nat.sub_le _ _
  rw [← List.drop_append_of_le_length h1, List.drop_drop]
  congr 1
  simp only [List.length_drop, List.length_append]
  omega

/-- Effect of one RX interrupt on a ring whose two sizes agree. -/
theorem rx_arrive (c : Config) (heq : c.SER_RX_BUFFER_SIZE = c.SER_TX_BUFFER_SIZE)
    (s : State) (b : Nat) (hr : s.ser_rxReadHead < c.SER_RX_BUFFER_SIZE)
    (hw : s.ser_rxWriteHead < c.SER_RX_BUFFER_SIZE) :
    (USART_RX_vect c b s).ser_rxReadHead < c.SER_RX_BUFFER_SIZE ∧
    (USART_RX_vect c b s).ser_rxWriteHead < c.SER_RX_BUFFER_SIZE ∧
    rxUnread c (USART_RX_vect c b s) =
      lastN (c.SER_RX_BUFFER_SIZE - 1) (rxUnread c s ++ [b]) := by
  have hcap : 0 < c.SER_RX_BUFFER_SIZE := by omega
  have hcnt := ringCount_lt s.ser_rxReadHead s.ser_rxWriteHead hcap
  have hw' : (s.ser_rxWriteHead + 1) % c.SER_RX_BUFFER_SIZE < c.SER_RX_BUFFER_SIZE :=
    Nat.mod_lt _ hcap
  have hr' : (s.ser_rxReadHead + 1) % c.SER_RX_BUFFER_SIZE < c.SER_RX_BUFFER_SIZE :=
    Nat.mod_lt _ hcap
  simp only [USART_RX_vect, ser_readByte, rxUnread, ← heq]
  by_cases hroom : ringCount c.SER_RX_BUFFER_SIZE s.ser_rxReadHead s.ser_rxWriteHead + 1
      < c.SER_RX_BUFFER_SIZE
  · have hp := ringCount_push hr hw hroom
    rw [if_neg hp.1]
    refine ⟨hr, hw', ?_⟩
    simp only
    rw [ringUnread_push _ _ hr hw hroom, lastN_of_le]
    simp only [List.length_append, ringUnread_length, List.length_singleton]
    omega
  · have hfull : ringCount c.SER_RX_BUFFER_SIZE s.ser_rxReadHead s.ser_rxWriteHead + 1
        = c.SER_RX_BUFFER_SIZE := by omega
    have hp := ringCount_push_full hr hw hfull
    rw [if_pos hp]
    refine ⟨hr', hw', ?_⟩
    simp only
    by_cases hne : s.ser_rxReadHead = s.ser_rxWriteHead
    · have h0 := (ringCount_eq_zero_iff hr hw).2 hne
      have h1 : c.SER_RX_BUFFER_SIZE = 1 := by omega
      simp [ringUnread, ringCount, lastN, h1, Nat.mod_one]
    · have hpop := ringCount_pop hr hw hne
      rw [ringUnread_pop s.ser_rxBuffer hr hw hne,
        ringUnread_push _ _ hr' hw (by omega)]
      have hlen : ((s.ser_rxBuffer s.ser_rxReadHead ::
          ringUnread c.SER_RX_BUFFER_SIZE s.ser_rxBuffer
            ((s.ser_rxReadHead + 1) % c.SER_RX_BUFFER_SIZE) s.ser_rxWriteHead) ++ [b]).length
          - (c.SER_RX_BUFFER_SIZE - 1) = 1 := by
        simp only [List.length_append, List.length_cons, ringUnread_length,
          List.length_nil]
        omega
      rw [lastN, hlen]
      rfl

/-- Effect of `ser_getByte` on a non-empty RX buffer: it returns on the first
pass of its wait loop with the oldest unread byte. -/
theorem rx_get (c : Config) (s : State) (fuel : Nat)
    (hr : s.ser_rxReadHead < c.SER_RX_BUFFER_SIZE)
    (hw : s.ser_rxWriteHead < c.SER_RX_BUFFER_SIZE)
    (hne : s.ser_rxReadHead ≠ s.ser_rxWriteHead) :
    ∃ s', ser_getByte c (fuel + 1) s = .ok (s', s.ser_rxBuffer s.ser_rxReadHead) ∧
      s' = { s with ser_rxReadHead := (s.ser_rxReadHead + 1) % c.SER_RX_BUFFER_SIZE } ∧
      s'.ser_rxReadHead < c.SER_RX_BUFFER_SIZE ∧
      s'.ser_rxWriteHead < c.SER_RX_BUFFER_SIZE ∧
      rxUnread c s = s.ser_rxBuffer s.ser_rxReadHead :: rxUnread c s' := by
  refine ⟨_, ?_, rfl, Nat.mod_lt _ (by omega), hw, ?_⟩
  · simp [ser_getByte, hne]
  · exact ringUnread_pop s.ser_rxBuffer hr hw hne

theorem rxUnread_eq_nil_iff (c : Config) (s : State)
    (hr : s.ser_rxReadHead < c.SER_RX_BUFFER_SIZE)
    (hw : s.ser_rxWriteHead < c.SER_RX_BUFFER_SIZE) :
    rxUnread c s = [] ↔ s.ser_rxReadHead = s.ser_rxWriteHead := by
  rw [← List.length_eq_zero, rxUnread, ringUnread_length]
  exact ringCount_eq_zero_iff hr hw

theorem rxUnread_length_lt (c : Config) (s : State) (hcap : 0 < c.SER_RX_BUFFER_SIZE) :
    (rxUnread c s).length < c.SER_RX_BUFFER_SIZE := by
  rw [rxUnread, ringUnread_length]
  exact ringCount_lt _ _ hcap

theorem begin_heads (c : Config) (baud : Nat) (s0 s : State)
    (h : SerialBegin_baud c baud s0 = some s) :
    s.ser_txReadHead = 0 ∧ s.ser_txWriteHead = 0 ∧ s.ser_rxReadHead = 0 ∧
    s.ser_rxWriteHead = 0 ∧ s.udr0Out = s0.udr0Out := by
  unfold SerialBegin_baud at h
  split at h
  · cases h
  · cases h
    simp

theorem ringUnread_same (cap : Nat) (buf : Nat → Nat) (r : Nat) (hr : r < cap) :
    ringUnread cap buf r r = [] := by
  rw [← List.length_eq_zero, ringUnread_length]
  exact (ringCount_eq_zero_iff hr hr).2 rfl

theorem writeList_outside : ∀ (l : List Nat) (p : Nat → Nat) (i j : Nat),
    (j < i ∨ i + l.length ≤ j) → writeList p i l j = p j
  | [], _, _, _, _ => rfl
  | b :: t, p, i, j, h => by
    rw [writeList, writeList_outside t _ _ _ (by simp only [List.length_cons] at h; omega)]
    simp only [List.length_cons] at h
    simp only [upd]
    rw [if_neg (by omega)]

theorem writeList_get : ∀ (l : List Nat) (p : Nat → Nat) (i j : Nat) (hj : j < l.length),
    writeList p i l (i + j) = l[j]
  | b :: t, p, i, 0, _ => by
    rw [writeList, writeList_outside t _ _ _ (by omega)]
    simp [upd]
  | b :: t, p, i, j + 1, hj => by
    have h := writeList_get t (upd p i b) (i + 1) j (by simpa using hj)
    rw [writeList, show i + (j + 1) = i + 1 + j by omega, h]
    simp

theorem writeList_range (l : List Nat) (p : Nat → Nat) :
    (List.range l.length).map (writeList p 0 l) = l := by
  apply List.ext_getElem
  · simp
  · intro n h1 h2
    have := writeList_get l p 0 n h2
    simp only [Nat.zero_add] at this
    simp [this]

theorem rxRun_inv (c : Config) (heq : c.SER_RX_BUFFER_SIZE = c.SER_TX_BUFFER_SIZE)
    (fuel : Nat) : ∀ (es : List RxEvent) (s : State) (out : List Nat),
    s.ser_rxReadHead < c.SER_RX_BUFFER_SIZE → s.ser_rxWriteHead < c.SER_RX_BUFFER_SIZE →
    rxAdmissible c.SER_RX_BUFFER_SIZE (rxUnread c s).length es = true →
    ∃ s' out', rxRun c (fuel + 1) es (s, out) = .ok (s', out') ∧
      s'.ser_rxReadHead < c.SER_RX_BUFFER_SIZE ∧ s'.ser_rxWriteHead < c.SER_RX_BUFFER_SIZE ∧
      out' ++ rxUnread c s' = out ++ rxUnread c s ++ arrivals es ∧
      out'.length = out.length + dequeues es
  | [], s, out, hr, hw, _ => ⟨s, out, rfl, hr, hw, by simp [arrivals], by simp [dequeues]⟩
  | .arrive b :: es, s, out, hr, hw, hadm => by
    simp only [rxAdmissible, Bool.and_eq_true, decide_eq_true_eq] at hadm
    obtain ⟨hr1, hw1, hu⟩ := rx_arrive c heq s b hr hw
    rw [lastN_of_le (by simpa using hadm.1)] at hu
    have hadm' : rxAdmissible c.SER_RX_BUFFER_SIZE
        (rxUnread c (USART_RX_vect c b s)).length es = true := by
      rw [hu]; simpa using hadm.2
    obtain ⟨s', out', h1, h2, h3, h4, h5⟩ := rxRun_inv c heq fuel es _ out hr1 hw1 hadm'
    refine ⟨s', out', ?_, h2, h3, ?_, ?_⟩
    · simpa [rxRun, rxStep] using h1
    · rw [h4, hu]; simp [arrivals]
    · simpa [dequeues] using h5
  | .dequeue :: es, s, out, hr, hw, hadm => by
    simp only [rxAdmissible, Bool.and_eq_true, decide_eq_true_eq] at hadm
    have hne : s.ser_rxReadHead ≠ s.ser_rxWriteHead := by
      intro h
      have := (rxUnread_eq_nil_iff c s hr hw).2 h
      rw [this] at hadm
      simp at hadm
    obtain ⟨s1, hg, -, hr1, hw1, hu⟩ := rx_get c s fuel hr hw hne
    have hadm' : rxAdmissible c.SER_RX_BUFFER_SIZE (rxUnread c s1).length es = true := by
      have := hadm.2
      rw [hu] at this
      simpa using this
    obtain ⟨s', out', h1, h2, h3, h4, h5⟩ :=
      rxRun_inv c heq fuel es s1 (out ++ [s.ser_rxBuffer s.ser_rxReadHead]) hr1 hw1 hadm'
    refine ⟨s', out', ?_, h2, h3, ?_, ?_⟩
    · simp only [rxRun, rxStep, hg]
      exact h1
    · rw [h4, hu]; simp [arrivals]
    · rw [h5]; simp [dequeues]; omega

/-- C1 (RX FIFO).  With both buffer sizes equal to `cap > 0` (in particular a
power of two), starting from the state `SerialBegin_baud` leaves, every
interleaving of RX interrupts and `ser_getByte` calls in which the outstanding
bytes never exceed `cap - 1` and `ser_getByte` is only called while a byte is
outstanding runs to completion (each `ser_getByte` returns on the first pass
of its wait loop), and the bytes `ser_getByte` returned are exactly the prefix,
of the same length, of the bytes that arrived; the bytes still unread are the
rest of the arrivals. -/
theorem rx_fifo_order (c : Config) (heq : c.SER_RX_BUFFER_SIZE = c.SER_TX_BUFFER_SIZE)
    (hcap : 0 < c.SER_RX_BUFFER_SIZE) (baud : Nat) (s0 s : State)
    (hbegin : SerialBegin_baud c baud s0 = some s) (fuel : Nat) (hfuel : 0 < fuel)
    (es : List RxEvent) (hadm : rxAdmissible c.SER_RX_BUFFER_SIZE 0 es = true) :
    ∃ s' out, rxRun c fuel es (s, []) = .ok (s', out) ∧
      out.length = dequeues es ∧
      out = (arrivals es).take out.length ∧
      rxUnread c s' = (arrivals es).drop out.length := by
  obtain ⟨-, -, hr0, hw0, -⟩ := begin_heads c baud s0 s hbegin
  have hr : s.ser_rxReadHead < c.SER_RX_BUFFER_SIZE := by omega
  have hw : s.ser_rxWriteHead < c.SER_RX_BUFFER_SIZE := by omega
  have hnil : rxUnread c s = [] := (rxUnread_eq_nil_iff c s hr hw).2 (by omega)
  obtain ⟨k, rfl⟩ : ∃ k, fuel = k + 1 := ⟨fuel - 1, by omega⟩
  obtain ⟨s', out, h1, -, -, h4, h5⟩ :=
    rxRun_inv c heq k es s [] hr hw (by rw [hnil]; exact hadm)
  rw [hnil] at h4
  simp only [List.nil_append, List.length_nil, Nat.zero_add] at h4 h5
  refine ⟨s', out, h1, h5, ?_, ?_⟩
  · rw [← h4]; simp
  · rw [← h4]; simp

theorem rx_fifo_order_witness :
    rxAdmissible defaultConfig.SER_RX_BUFFER_SIZE 0
        [.arrive 65, .arrive 66, .dequeue, .arrive 67, .dequeue] = true ∧
    ∃ s' out, rxRun defaultConfig 1 [.arrive 65, .arrive 66, .dequeue, .arrive 67, .dequeue]
        (bootState, []) = .ok (s', out) ∧
      out.length = dequeues [.arrive 65, .arrive 66, .dequeue, .arrive 67, .dequeue] ∧
      out = (arrivals [.arrive 65, .arrive 66, .dequeue, .arrive 67, .dequeue]).take out.length ∧
      rxUnread defaultConfig s' =
        (arrivals [.arrive 65, .arrive 66, .dequeue, .arrive 67, .dequeue]).drop out.length :=
  ⟨by decide, rx_fifo_order defaultConfig rfl (by decide) 9600 resetState bootState rfl 1
    (by decide) _ (by decide)⟩

theorem arriveAll_unread (c : Config) (heq : c.SER_RX_BUFFER_SIZE = c.SER_TX_BUFFER_SIZE) :
    ∀ (bytes : List Nat) (s : State),
    s.ser_rxReadHead < c.SER_RX_BUFFER_SIZE → s.ser_rxWriteHead < c.SER_RX_BUFFER_SIZE →
    (arriveAll c bytes s).ser_rxReadHead < c.SER_RX_BUFFER_SIZE ∧
    (arriveAll c bytes s).ser_rxWriteHead < c.SER_RX_BUFFER_SIZE ∧
    rxUnread c (arriveAll c bytes s) = lastN (c.SER_RX_BUFFER_SIZE - 1) (rxUnread c s ++ bytes)
  | [], s, hr, hw => by
    refine ⟨hr, hw, ?_⟩
    have := rxUnread_length_lt c s (by omega)
    rw [List.append_nil, lastN_of_le (by omega)]
    rfl
  | b :: bs, s, hr, hw => by
    obtain ⟨hr1, hw1, hu⟩ := rx_arrive c heq s b hr hw
    obtain ⟨h1, h2, h3⟩ := arriveAll_unread c heq bs (USART_RX_vect c b s) hr1 hw1
    refine ⟨h1, h2, ?_⟩
    show rxUnread c (arriveAll c bs (USART_RX_vect c b s)) = _
    rw [h3, hu, lastN_append_lastN]
    simp

theorem read_count_loop (c : Config) (fuel : Nat) :
    ∀ (n i : Nat) (s : State) (p : Nat → Nat),
    s.ser_rxReadHead < c.SER_RX_BUFFER_SIZE → s.ser_rxWriteHead < c.SER_RX_BUFFER_SIZE →
    n ≤ (rxUnread c s).length →
    ∃ s', SerialRead_count_loop c (fuel + 1) n i s p
        = .ok (s', writeList p i ((rxUnread c s).take n)) ∧
      s'.ser_rxReadHead < c.SER_RX_BUFFER_SIZE ∧ s'.ser_rxWriteHead < c.SER_RX_BUFFER_SIZE ∧
      rxUnread c s' = (rxUnread c s).drop n
  | 0, i, s, p, hr, hw, _ => ⟨s, rfl, hr, hw, rfl⟩
  | n + 1, i, s, p, hr, hw, hn => by
    have hne : s.ser_rxReadHead ≠ s.ser_rxWriteHead := by
      intro h
      rw [(rxUnread_eq_nil_iff c s hr hw).2 h] at hn
      simp at hn
    obtain ⟨s1, hg, -, hr1, hw1, hu⟩ := rx_get c s fuel hr hw hne
    rw [hu] at hn ⊢
    obtain ⟨s', h1, h2, h3, h4⟩ := read_count_loop c fuel n (i + 1) s1
      (upd p i (s.ser_rxBuffer s.ser_rxReadHead)) hr1 hw1 (by simpa using hn)
    refine ⟨s', ?_, h2, h3, ?_⟩
    · simp only [SerialRead_count_loop, hg]
      rw [h1]
      rfl
    · rw [h4]; rfl

/-- C2 (RX drop-oldest overflow).  With both buffer sizes equal to `cap > 0`,
if `k > cap - 1` bytes arrive through the RX interrupt into an empty RX buffer
with no dequeue in between, the buffer then holds exactly `cap - 1` unread
bytes, namely the last `cap - 1` bytes that arrived, in arrival order;
dequeuing `cap - 1` bytes with `ser_getByte` (through `SerialRead_count`)
returns and yields exactly those bytes in that order, leaving the buffer
empty. -/
theorem rx_drop_oldest (c : Config) (heq : c.SER_RX_BUFFER_SIZE = c.SER_TX_BUFFER_SIZE)
    (s : State)
    (hr : s.ser_rxReadHead < c.SER_RX_BUFFER_SIZE)
    (hempty : s.ser_rxReadHead = s.ser_rxWriteHead)
    (bytes : List Nat) (hk : c.SER_RX_BUFFER_SIZE - 1 < bytes.length)
    (fuel : Nat) (hfuel : 0 < fuel) (pBuffer : Nat → Nat) :
    (rxUnread c (arriveAll c bytes s)).length = c.SER_RX_BUFFER_SIZE - 1 ∧
    rxUnread c (arriveAll c bytes s) = bytes.drop (bytes.length - (c.SER_RX_BUFFER_SIZE - 1)) ∧
    ∃ s' p', SerialRead_count c fuel (arriveAll c bytes s) pBuffer (c.SER_RX_BUFFER_SIZE - 1)
        = .ok (s', p') ∧
      (List.range (c.SER_RX_BUFFER_SIZE - 1)).map p'
        = bytes.drop (bytes.length - (c.SER_RX_BUFFER_SIZE - 1)) ∧
      rxUnread c s' = [] ∧ s'.ser_rxReadHead = s'.ser_rxWriteHead := by
  have hw : s.ser_rxWriteHead < c.SER_RX_BUFFER_SIZE := by omega
  obtain ⟨hr1, hw1, hu⟩ := arriveAll_unread c heq bytes s hr hw
  rw [(rxUnread_eq_nil_iff c s hr hw).2 hempty, List.nil_append] at hu
  have hlen : (rxUnread c (arriveAll c bytes s)).length = c.SER_RX_BUFFER_SIZE - 1 := by
    rw [hu, lastN_length]; omega
  obtain ⟨k, rfl⟩ : ∃ k, fuel = k + 1 := ⟨fuel - 1, by omega⟩
  obtain ⟨s', h1, h2, h3, h4⟩ := read_count_loop c k (c.SER_RX_BUFFER_SIZE - 1) 0
    (arriveAll c bytes s) pBuffer hr1 hw1 (by omega)
  have hnil : rxUnread c s' = [] := by
    rw [h4, ← hlen]; simp
  refine ⟨hlen, hu, s', _, h1, ?_, hnil, (rxUnread_eq_nil_iff c s' h2 h3).1 hnil⟩
  have ht : (rxUnread c (arriveAll c bytes s)).take (c.SER_RX_BUFFER_SIZE - 1)
      = rxUnread c (arriveAll c bytes s) := List.take_of_length_le (by omega)
  have hwl := writeList_range (rxUnread c (arriveAll c bytes s)) pBuffer
  rw [hlen] at hwl
  rw [ht, hwl, hu]
  rfl

theorem rx_drop_oldest_witness :
    (bootState.ser_rxReadHead < 4 ∧ 4 - 1 < [1, 2, 3, 4, 5].length) ∧
    rxUnread ⟨16000000, 4, 4⟩ (arriveAll ⟨16000000, 4, 4⟩ [1, 2, 3, 4, 5] bootState)
      = [3, 4, 5] :=
  ⟨by decide, (rx_drop_oldest ⟨16000000, 4, 4⟩ rfl bootState (by decide) rfl
    [1, 2, 3, 4, 5] (by decide) 1 (by decide) (fun _ => 0)).2.1⟩

/-! ## The transmit ring -/

theorem ringCount_room {cap r w : Nat} (hr : r < cap) (hw : w < cap)
    (hnf : (w + 1) % cap ≠ r) : ringCount cap r w + 1 < cap := by
  have h1 := ringCount_lt r w (show 0 < cap by omega)
  by_contra h
  exact hnf (ringCount_push_full hr hw (by omega))

/-- Effect of `ser_writeByte`: one pending byte, if any, moves to `UDR0`. -/
theorem tx_write (c : Config) (s : State)
    (hr : s.ser_txReadHead < c.SER_TX_BUFFER_SIZE)
    (hw : s.ser_txWriteHead < c.SER_TX_BUFFER_SIZE) :
    (ser_writeByte c s).ser_txReadHead < c.SER_TX_BUFFER_SIZE ∧
    (ser_writeByte c s).ser_txWriteHead = s.ser_txWriteHead ∧
    (ser_writeByte c s).UDRE0 = s.UDRE0 ∧
    (ser_writeByte c s).udr0Out ++ txPending c (ser_writeByte c s)
      = s.udr0Out ++ txPending c s ∧
    (ser_writeByte c s).udr0Out = s.udr0Out ++ (txPending c s).take 1 := by
  unfold ser_writeByte
  by_cases hne : s.ser_txReadHead = s.ser_txWriteHead
  · rw [if_neg (by simpa using hne)]
    refine ⟨hr, rfl, rfl, rfl, ?_⟩
    simp [txPending, hne, ringUnread_same _ _ _ hw]
  · rw [if_pos hne]
    refine ⟨Nat.mod_lt _ (by omega), rfl, rfl, ?_, ?_⟩
    · simp only [txPending]
      rw [ringUnread_pop s.ser_txBuffer hr hw hne]
      simp
    · simp only [txPending]
      rw [ringUnread_pop s.ser_txBuffer hr hw hne]
      simp

/-- The state `ser_putByte` reaches before it looks at `UDRE0`. -/
theorem ser_putByte_succ (c : Config) (s : State) (b fuel : Nat)
    (hnf : (s.ser_txWriteHead + 1) % c.SER_TX_BUFFER_SIZE ≠ s.ser_txReadHead) :
    ser_putByte c (fuel + 1) s b = .ok
      (if s.UDRE0 = true then
        ser_writeByte c { s with
          ser_txBuffer := upd s.ser_txBuffer s.ser_txWriteHead b,
          ser_txWriteHead := (s.ser_txWriteHead + 1) % c.SER_TX_BUFFER_SIZE }
      else { s with
          ser_txBuffer := upd s.ser_txBuffer s.ser_txWriteHead b,
          ser_txWriteHead := (s.ser_txWriteHead + 1) % c.SER_TX_BUFFER_SIZE }) := by
  simp only [ser_putByte, if_neg hnf]

/-- Effect of `ser_putByte` on a TX buffer that is not full: it returns on the
first pass of its wait loop. -/
theorem tx_put (c : Config) (s : State) (b fuel : Nat)
    (hr : s.ser_txReadHead < c.SER_TX_BUFFER_SIZE)
    (hw : s.ser_txWriteHead < c.SER_TX_BUFFER_SIZE)
    (hnf : (s.ser_txWriteHead + 1) % c.SER_TX_BUFFER_SIZE ≠ s.ser_txReadHead) :
    ∃ s', ser_putByte c (fuel + 1) s b = .ok s' ∧
      s'.ser_txReadHead < c.SER_TX_BUFFER_SIZE ∧
      s'.ser_txWriteHead = (s.ser_txWriteHead + 1) % c.SER_TX_BUFFER_SIZE ∧
      s'.UDRE0 = s.UDRE0 ∧
      s'.udr0Out ++ txPending c s' = s.udr0Out ++ txPending c s ++ [b] ∧
      s'.udr0Out = s.udr0Out ++
        (if s.UDRE0 = true then (txPending c s ++ [b]).take 1 else []) := by
  have hcap : 0 < c.SER_TX_BUFFER_SIZE := by omega
  have hw' : (s.ser_txWriteHead + 1) % c.SER_TX_BUFFER_SIZE < c.SER_TX_BUFFER_SIZE :=
    Nat.mod_lt _ hcap
  have hpush := ringUnread_push s.ser_txBuffer b hr hw (ringCount_room hr hw hnf)
  refine ⟨_, ser_putByte_succ c s b fuel hnf, ?_⟩
  by_cases hu : s.UDRE0 = true
  · rw [if_pos hu, if_pos hu]
    obtain ⟨h1, h2, h3, h4, h5⟩ := tx_write c
      { s with ser_txBuffer := upd s.ser_txBuffer s.ser_txWriteHead b,
               ser_txWriteHead := (s.ser_txWriteHead + 1) % c.SER_TX_BUFFER_SIZE } hr hw'
    refine ⟨h1, h2, h3, ?_, ?_⟩
    · rw [h4]
      simp only [txPending]
      rw [hpush, List.append_assoc]
    · rw [h5]
      simp only [txPending]
      rw [hpush]
  · rw [if_neg hu, if_neg hu]
    refine ⟨hr, rfl, rfl, ?_, ?_⟩
    · simp only [txPending]
      rw [hpush, List.append_assoc]
    · simp

theorem txRun_inv (c : Config) (fuel : Nat) : ∀ (es : List TxEvent) (s : State),
    s.ser_txReadHead < c.SER_TX_BUFFER_SIZE → s.ser_txWriteHead < c.SER_TX_BUFFER_SIZE →
    txAdmissible c (fuel + 1) es s = true →
    ∃ s', txRun c (fuel + 1) es s = .ok s' ∧
      s'.ser_txReadHead < c.SER_TX_BUFFER_SIZE ∧ s'.ser_txWriteHead < c.SER_TX_BUFFER_SIZE ∧
      s'.udr0Out ++ txPending c s' = s.udr0Out ++ txPending c s ++ enqueued es ∧
      s.udr0Out <+: s'.udr0Out
  | [], s, hr, hw, _ => ⟨s, rfl, hr, hw, by simp [enqueued], List.prefix_refl _⟩
  | .put b u :: es, s, hr, hw, hadm => by
    simp only [txAdmissible, txFull, Bool.and_eq_true, Bool.not_eq_true', decide_eq_false_iff_not,
      txStep] at hadm
    obtain ⟨s1, h1, h2, h3, -, h5, h6⟩ := tx_put c { s with UDRE0 := u } b fuel hr hw hadm.1
    have hadm' := hadm.2
    rw [h1] at hadm'
    obtain ⟨s', k1, k2, k3, k4, k5⟩ := txRun_inv c fuel es s1 h2
      (by rw [h3]; exact Nat.mod_lt _ (by omega)) hadm'
    refine ⟨s', ?_, k2, k3, ?_, ?_⟩
    · simp only [txRun, txStep, h1]
      exact k1
    · rw [k4, h5]
      simp [enqueued, txPending]
    · exact List.IsPrefix.trans ⟨_, h6.symm⟩ k5
  | .txInterrupt :: es, s, hr, hw, hadm => by
    simp only [txAdmissible, txStep, Bool.true_and, USART_TX_vect] at hadm
    obtain ⟨h1, h2, -, h4, h5⟩ := tx_write c s hr hw
    obtain ⟨s', k1, k2, k3, k4, k5⟩ := txRun_inv c fuel es (ser_writeByte c s) h1
      (by rw [h2]; exact hw) hadm
    refine ⟨s', ?_, k2, k3, ?_, ?_⟩
    · simp only [txRun, txStep, USART_TX_vect]
      exact k1
    · rw [k4, h4]
      simp [enqueued]
    · exact List.IsPrefix.trans ⟨_, h5.symm⟩ k5

theorem ser_writeByte_UDRE0 (c : Config) (s : State) : (ser_writeByte c s).UDRE0 = s.UDRE0 := by
  unfold ser_writeByte
  split <;> rfl

theorem ser_putByte_UDRE0 (c : Config) : ∀ (fuel : Nat) (s s' : State) (b : Nat),
    ser_putByte c fuel s b = .ok s' → s'.UDRE0 = s.UDRE0
  | 0, s, s', b, h => by simp [ser_putByte] at h
  | fuel + 1, s, s', b, h => by
    by_cases hf : (s.ser_txWriteHead + 1) % c.SER_TX_BUFFER_SIZE = s.ser_txReadHead
    · simp only [ser_putByte, if_pos hf] at h
      exact ser_putByte_UDRE0 c fuel s s' b h
    · rw [ser_putByte_succ c s b fuel hf] at h
      injection h with h
      subst h
      split
      · rw [ser_writeByte_UDRE0]
      · rfl

theorem SerialWrite_loop_eq_txRun (c : Config) (fuel : Nat) (pByte : Nat → Nat) :
    ∀ (k i : Nat) (t : State),
    SerialWrite_loop c fuel pByte k i t
      = txRun c fuel ((List.range' i k).map fun j => TxEvent.put (pByte j) t.UDRE0) t
  | 0, _, _ => rfl
  | k + 1, i, t => by
    simp only [SerialWrite_loop, List.range', List.map_cons, txRun, txStep]
    have ht : ({ t with UDRE0 := t.UDRE0 } : State) = t := rfl
    rw [ht]
    cases h : ser_putByte c fuel t (pByte i) with
    | error e => rfl
    | ok s' =>
      simp only
      rw [SerialWrite_loop_eq_txRun c fuel pByte k (i + 1) s', ser_putByte_UDRE0 c fuel t s' _ h]

theorem enqueued_put_map (pByte : Nat → Nat) (u : Bool) : ∀ (l : List Nat),
    enqueued (l.map fun j => TxEvent.put (pByte j) u) = l.map pByte
  | [] => rfl
  | j :: l => by simp [enqueued, enqueued_put_map pByte u l]

theorem tx_write_pending (c : Config) (s : State)
    (hr : s.ser_txReadHead < c.SER_TX_BUFFER_SIZE)
    (hw : s.ser_txWriteHead < c.SER_TX_BUFFER_SIZE) :
    txPending c (ser_writeByte c s) = (txPending c s).drop 1 := by
  obtain ⟨-, -, -, h4, h5⟩ := tx_write c s hr hw
  rw [h5, List.append_assoc] at h4
  have h6 := List.append_cancel_left h4
  exact List.append_cancel_left (h6.trans (List.take_append_drop 1 _).symm)

/-- After `n` TX interrupts the first `n` pending bytes have been written to
`UDR0`, in order. -/
theorem tx_drain (c : Config) (fuel : Nat) : ∀ (n : Nat) (s : State),
    s.ser_txReadHead < c.SER_TX_BUFFER_SIZE → s.ser_txWriteHead < c.SER_TX_BUFFER_SIZE →
    ∃ s', txRun c fuel (List.replicate n TxEvent.txInterrupt) s = .ok s' ∧
      s'.udr0Out = s.udr0Out ++ (txPending c s).take n ∧
      txPending c s' = (txPending c s).drop n
  | 0, s, _, _ => ⟨s, rfl, by simp, by simp⟩
  | n + 1, s, hr, hw => by
    obtain ⟨h1, h2, -, -, h5⟩ := tx_write c s hr hw
    obtain ⟨s', k1, k2, k3⟩ := tx_drain c fuel n (ser_writeByte c s) h1 (by rw [h2]; exact hw)
    refine ⟨s', ?_, ?_, ?_⟩
    · simp only [List.replicate_succ, txRun, txStep, USART_TX_vect]
      exact k1
    · rw [k2, h5, tx_write_pending c s hr hw, List.append_assoc]
      congr 1
      cases txPending c s with
      | nil => simp
      | cons x l => simp
    · rw [k3, tx_write_pending c s hr hw, List.drop_drop]
      congr 1
      omega

/-- C4 (TX order to hardware).  Starting from the state `SerialBegin_baud`
leaves, for every sequence of `ser_putByte(b)` calls (each made while the TX
buffer is not full, with `UDRE0` set or clear as the event says) and TX
interrupts: the sequence runs to completion, the bytes written to `UDR0` are
a prefix of the bytes enqueued, and the bytes between `ser_txReadHead` and
`ser_txWriteHead` are exactly the enqueued bytes not yet written, in enqueue
order; once as many further TX interrupts have fired as bytes are pending,
`UDR0` has received exactly the enqueued bytes, in order, and the buffer is
empty.  `SerialWrite(p, count)` is the sequence of calls
`ser_putByte(p[0])`, …, `ser_putByte(p[count-1])`, so the bytes it enqueues
are `p[0..count)` in that order. -/
theorem tx_order_to_hardware (c : Config) (hcap : 0 < c.SER_TX_BUFFER_SIZE)
    (baud : Nat) (s0 s : State) (hbegin : SerialBegin_baud c baud s0 = some s)
    (fuel : Nat) (hfuel : 0 < fuel) (es : List TxEvent)
    (hadm : txAdmissible c fuel es s = true) :
    (∃ s' out, txRun c fuel es s = .ok s' ∧
      s'.udr0Out = s.udr0Out ++ out ∧
      out <+: enqueued es ∧
      out ++ txPending c s' = enqueued es ∧
      ∀ n, (txPending c s').length ≤ n →
        ∃ s'', txRun c fuel (List.replicate n TxEvent.txInterrupt) s' = .ok s'' ∧
          s''.udr0Out = s.udr0Out ++ enqueued es ∧ txPending c s'' = []) ∧
    (∀ (t : State) (pByte : Nat → Nat) (count : Nat),
      SerialWrite c fuel t pByte count = txRun c fuel (writeEvents pByte count t.UDRE0) t ∧
      enqueued (writeEvents pByte count t.UDRE0) = (List.range count).map pByte) := by
  obtain ⟨hr0, hw0, -, -, -⟩ := begin_heads c baud s0 s hbegin
  have hr : s.ser_txReadHead < c.SER_TX_BUFFER_SIZE := by omega
  have hw : s.ser_txWriteHead < c.SER_TX_BUFFER_SIZE := by omega
  have hnil : txPending c s = [] := by
    rw [txPending, hr0, hw0]
    exact ringUnread_same _ _ _ hcap
  obtain ⟨k, rfl⟩ : ∃ k, fuel = k + 1 := ⟨fuel - 1, by omega⟩
  constructor
  · obtain ⟨s', h1, h2, h3, h4, out, h5⟩ := txRun_inv c k es s hr hw hadm
    rw [hnil, List.append_nil, ← h5, List.append_assoc] at h4
    have h6 := List.append_cancel_left h4
    refine ⟨s', out, h1, h5.symm, ⟨_, h6⟩, h6, ?_⟩
    intro n hn
    obtain ⟨s'', d1, d2, d3⟩ := tx_drain c (k + 1) n s' h2 h3
    refine ⟨s'', d1, ?_, ?_⟩
    · rw [d2, List.take_of_length_le hn, ← h5, List.append_assoc, h6]
    · rw [d3, List.drop_of_length_le hn]
  · intro t pByte count
    refine ⟨?_, ?_⟩
    · rw [SerialWrite, SerialWrite_loop_eq_txRun, writeEvents, List.range_eq_range']
    · rw [writeEvents, enqueued_put_map]

/-- C5 (idle-to-transmitting priming).  With at least two TX slots, for every
byte `x` and every state in which the TX buffer is empty (heads equal and in
range) and `UDRE0` is set, one `ser_putByte(x)` returns having written exactly
one byte to `UDR0`, namely `x`, and leaves the TX buffer empty with both heads
at the old write head plus one modulo `SER_TX_BUFFER_SIZE`. -/
theorem tx_idle_priming (c : Config) (hcap : 1 < c.SER_TX_BUFFER_SIZE) (s : State)
    (hr : s.ser_txReadHead < c.SER_TX_BUFFER_SIZE)
    (hempty : s.ser_txReadHead = s.ser_txWriteHead) (hudre : s.UDRE0 = true)
    (x fuel : Nat) (hfuel : 0 < fuel) :
    ∃ s', ser_putByte c fuel s x = .ok s' ∧
      s'.udr0Out = s.udr0Out ++ [x] ∧
      s'.ser_txReadHead = (s.ser_txWriteHead + 1) % c.SER_TX_BUFFER_SIZE ∧
      s'.ser_txWriteHead = (s.ser_txWriteHead + 1) % c.SER_TX_BUFFER_SIZE ∧
      txPending c s' = [] := by
  have hw : s.ser_txWriteHead < c.SER_TX_BUFFER_SIZE := by omega
  have hnf : (s.ser_txWriteHead + 1) % c.SER_TX_BUFFER_SIZE ≠ s.ser_txReadHead := by
    rcases mod_cases (s.ser_txWriteHead + 1) c.SER_TX_BUFFER_SIZE (by omega)
      with ⟨h3, h4⟩ | ⟨h3, h4⟩ <;> omega
  obtain ⟨k, rfl⟩ : ∃ k, fuel = k + 1 := ⟨fuel - 1, by omega⟩
  refine ⟨_, ser_putByte_succ c s x k hnf, ?_⟩
  rw [if_pos hudre]
  have hne : s.ser_txWriteHead ≠ (s.ser_txWriteHead + 1) % c.SER_TX_BUFFER_SIZE :=
    fun h => hnf (hempty ▸ h.symm)
  simp only [ser_writeByte, hempty, if_pos hne, txPending, upd, if_true, true_and]
  exact ringUnread_same _ _ _ (Nat.mod_lt _ (by omega))

theorem tx_order_to_hardware_witness :
    txAdmissible defaultConfig 1
        [.put 1 false, .put 2 false, .txInterrupt, .put 3 true, .txInterrupt] bootState = true ∧
    ∃ s' out, txRun defaultConfig 1
        [.put 1 false, .put 2 false, .txInterrupt, .put 3 true, .txInterrupt] bootState = .ok s' ∧
      s'.udr0Out = bootState.udr0Out ++ out ∧
      out <+: enqueued [.put 1 false, .put 2 false, .txInterrupt, .put 3 true, .txInterrupt] ∧
      out ++ txPending defaultConfig s' =
        enqueued [.put 1 false, .put 2 false, .txInterrupt, .put 3 true, .txInterrupt] ∧
      ∀ n, (txPending defaultConfig s').length ≤ n →
        ∃ s'', txRun defaultConfig 1 (List.replicate n TxEvent.txInterrupt) s' = .ok s'' ∧
          s''.udr0Out = bootState.udr0Out ++
            enqueued [.put 1 false, .put 2 false, .txInterrupt, .put 3 true, .txInterrupt] ∧
          txPending defaultConfig s'' = [] :=
  ⟨by decide, (tx_order_to_hardware defaultConfig (by decide) 9600 resetState bootState rfl 1
    (by decide) _ (by decide)).1⟩

theorem tx_idle_priming_witness :
    (1 < defaultConfig.SER_TX_BUFFER_SIZE ∧
      bootState.ser_txReadHead < defaultConfig.SER_TX_BUFFER_SIZE ∧
      bootState.ser_txReadHead = bootState.ser_txWriteHead ∧ bootState.UDRE0 = true) ∧
    ∃ s', ser_putByte defaultConfig 1 bootState 88 = .ok s' ∧
      s'.udr0Out = bootState.udr0Out ++ [88] ∧
      s'.ser_txReadHead = (bootState.ser_txWriteHead + 1) % defaultConfig.SER_TX_BUFFER_SIZE ∧
      s'.ser_txWriteHead = (bootState.ser_txWriteHead + 1) % defaultConfig.SER_TX_BUFFER_SIZE ∧
      txPending defaultConfig s' = [] :=
  ⟨by decide, tx_idle_priming defaultConfig (by decide) bootState (by decide) rfl rfl 88 1
    (by decide)⟩

/-- C3, evaluated.  With `SER_TX_BUFFER_SIZE = 16` and `SER_RX_BUFFER_SIZE = 8`
(both powers of two), eight RX interrupts after `SerialBegin_baud` leave
`ser_rxWriteHead = 8`, which is not an index of the 8-slot `ser_rxBuffer`; the
ninth interrupt stores its byte at `ser_rxBuffer[8]`. -/
theorem rx_write_head_leaves_buffer :
    ∃ s, SerialBegin_baud ⟨16000000, 16, 8⟩ 9600 resetState = some s ∧
      (arriveAll ⟨16000000, 16, 8⟩ [1, 2, 3, 4, 5, 6, 7, 8] s).ser_rxWriteHead = 8 ∧
      ¬ (arriveAll ⟨16000000, 16, 8⟩ [1, 2, 3, 4, 5, 6, 7, 8] s).ser_rxWriteHead
          < (⟨16000000, 16, 8⟩ : Config).SER_RX_BUFFER_SIZE ∧
      (arriveAll ⟨16000000, 16, 8⟩ [1, 2, 3, 4, 5, 6, 7, 8, 9] s).ser_rxBuffer 8 = 9 :=
  ⟨bootState, rfl, by decide, by decide, by decide⟩

/-! ## Bounded reads -/

theorem rx_nonempty_of_cons (c : Config) (s : State) (x : Nat) (l : List Nat)
    (hr : s.ser_rxReadHead < c.SER_RX_BUFFER_SIZE)
    (hw : s.ser_rxWriteHead < c.SER_RX_BUFFER_SIZE)
    (hu : rxUnread c s = x :: l) : s.ser_rxReadHead ≠ s.ser_rxWriteHead := by
  intro h
  rw [(rxUnread_eq_nil_iff c s hr hw).2 h] at hu
  cases hu

/-- `ser_getByte` on a buffer whose unread bytes are `x :: l`. -/
theorem rx_get_cons (c : Config) (s : State) (fuel x : Nat) (l : List Nat)
    (hr : s.ser_rxReadHead < c.SER_RX_BUFFER_SIZE)
    (hw : s.ser_rxWriteHead < c.SER_RX_BUFFER_SIZE)
    (hu : rxUnread c s = x :: l) :
    ∃ s', ser_getByte c (fuel + 1) s = .ok (s', x) ∧
      s'.ser_rxReadHead < c.SER_RX_BUFFER_SIZE ∧
      s'.ser_rxWriteHead < c.SER_RX_BUFFER_SIZE ∧ rxUnread c s' = l := by
  obtain ⟨s', h1, -, h2, h3, h4⟩ := rx_get c s fuel hr hw (rx_nonempty_of_cons c s x l hr hw hu)
  rw [hu] at h4
  injection h4 with h5 h6
  exact ⟨s', by rw [h1, h5], h2, h3, h6.symm⟩

/-- `SerialRead_delim` when the delimiter is met within the bound. -/
theorem read_delim_found (c : Config) (fuel lenMax delim : Nat) :
    ∀ (pre post : List Nat) (k i : Nat) (s : State) (p : Nat → Nat),
    s.ser_rxReadHead < c.SER_RX_BUFFER_SIZE → s.ser_rxWriteHead < c.SER_RX_BUFFER_SIZE →
    rxUnread c s = pre ++ delim :: post → delim ∉ pre → pre.length < k →
    ∃ s', SerialRead_delim_loop c (fuel + 1) lenMax delim k i s p
        = .ok (s', writeList p i (pre ++ [delim]), i + pre.length) ∧
      s'.ser_rxReadHead < c.SER_RX_BUFFER_SIZE ∧ s'.ser_rxWriteHead < c.SER_RX_BUFFER_SIZE ∧
      rxUnread c s' = post
  | [], post, k + 1, i, s, p, hr, hw, hu, _, _ => by
    obtain ⟨s', h1, h2, h3, h4⟩ := rx_get_cons c s fuel delim post hr hw hu
    refine ⟨s', ?_, h2, h3, h4⟩
    simp [SerialRead_delim_loop, h1, upd, writeList]
  | x :: pre, post, k + 1, i, s, p, hr, hw, hu, hpre, hk => by
    obtain ⟨s1, h1, h2, h3, h4⟩ := rx_get_cons c s fuel x (pre ++ delim :: post) hr hw hu
    have hx : x ≠ delim := fun h => hpre (by simp [h])
    obtain ⟨s', k1, k2, k3, k4⟩ := read_delim_found c fuel lenMax delim pre post k (i + 1) s1
      (upd p i x) h2 h3 h4 (fun h => hpre (List.mem_cons_of_mem _ h))
      (by simpa using hk)
    refine ⟨s', ?_, k2, k3, k4⟩
    simp only [SerialRead_delim_loop, h1, upd, if_true, if_neg hx]
    rw [show i + (x :: pre).length = i + 1 + pre.length by simp; omega]
    exact k1

/-- `SerialRead_delim` when the bound is reached before a delimiter. -/
theorem read_delim_bound (c : Config) (fuel lenMax delim : Nat) :
    ∀ (pre post : List Nat) (i : Nat) (s : State) (p : Nat → Nat),
    s.ser_rxReadHead < c.SER_RX_BUFFER_SIZE → s.ser_rxWriteHead < c.SER_RX_BUFFER_SIZE →
    rxUnread c s = pre ++ post → delim ∉ pre →
    ∃ s', SerialRead_delim_loop c (fuel + 1) lenMax delim pre.length i s p
        = .ok (s', writeList p i pre, lenMax) ∧
      s'.ser_rxReadHead < c.SER_RX_BUFFER_SIZE ∧ s'.ser_rxWriteHead < c.SER_RX_BUFFER_SIZE ∧
      rxUnread c s' = post
  | [], post, i, s, p, hr, hw, hu, _ => ⟨s, rfl, hr, hw, hu⟩
  | x :: pre, post, i, s, p, hr, hw, hu, hpre => by
    obtain ⟨s1, h1, h2, h3, h4⟩ := rx_get_cons c s fuel x (pre ++ post) hr hw hu
    have hx : x ≠ delim := fun h => hpre (by simp [h])
    obtain ⟨s', k1, k2, k3, k4⟩ := read_delim_bound c fuel lenMax delim pre post (i + 1) s1
      (upd p i x) h2 h3 h4 (fun h => hpre (List.mem_cons_of_mem _ h))
    refine ⟨s', ?_, k2, k3, k4⟩
    simp only [List.length_cons, SerialRead_delim_loop, h1, upd, if_true, if_neg hx]
    exact k1

/-- In every run of the loop of `SerialRead_delim`, returned or still
waiting, the bytes taken from the RX buffer are at most `k` and only the last
of them can be the delimiter. -/
theorem read_delim_any (c : Config) (lenMax delim : Nat) :
    ∀ (k fuel i : Nat) (s : State) (p : Nat → Nat),
    s.ser_rxReadHead < c.SER_RX_BUFFER_SIZE → s.ser_rxWriteHead < c.SER_RX_BUFFER_SIZE →
    ∃ d, rxUnread c s
        = d ++ rxUnread c (finalState (SerialRead_delim_loop c fuel lenMax delim k i s p)) ∧
      d.length ≤ k ∧ delim ∉ d.dropLast
  | 0, fuel, i, s, p, _, _ => ⟨[], by simp [SerialRead_delim_loop, finalState], by simp, by simp⟩
  | k + 1, 0, i, s, p, _, _ =>
    ⟨[], by simp [SerialRead_delim_loop, ser_getByte, finalState], by simp, by simp⟩
  | k + 1, fuel + 1, i, s, p, hr, hw => by
    by_cases hne : s.ser_rxReadHead = s.ser_rxWriteHead
    · refine ⟨[], ?_, by simp, by simp⟩
      have hg : ∀ f, ser_getByte c f s = .error s := by
        intro f
        induction f with
        | zero => rfl
        | succ f ih => simp [ser_getByte, hne, ih]
      simp [SerialRead_delim_loop, hg, finalState]
    · obtain ⟨s1, h1, -, h2, h3, h4⟩ := rx_get c s fuel hr hw hne
      by_cases hx : s.ser_rxBuffer s.ser_rxReadHead = delim
      · refine ⟨[s.ser_rxBuffer s.ser_rxReadHead], ?_, by simp, by simp⟩
        simp only [SerialRead_delim_loop, h1, upd, if_true, if_pos hx, finalState]
        exact h4
      · obtain ⟨d, k1, k2, k3⟩ := read_delim_any c lenMax delim k (fuel + 1) (i + 1) s1
          (upd p i (s.ser_rxBuffer s.ser_rxReadHead)) h2 h3
        refine ⟨s.ser_rxBuffer s.ser_rxReadHead :: d, ?_, by simpa using k2, ?_⟩
        · simp only [SerialRead_delim_loop, h1, upd, if_true, if_neg hx]
          rw [h4, k1]
          rfl
        · cases d with
          | nil => simp
          | cons y d' =>
            rw [List.dropLast_cons₂]
            intro hmem
            rcases List.mem_cons.1 hmem with h | h
            · exact hx h.symm
            · exact k3 h

/-- C6, the scenario as stated fails.  With the RX buffer pre-loaded with
`'A','B','\n'` (65, 66, 10), `lenMax = 10` and `delim = '\n'`,
`SerialRead_delim` stores `['A','B','\n']` and returns 2, not 3: the
delimiter is stored but not counted. -/
theorem read_delim_scenario_returns_two :
    rxUnread defaultConfig (arriveAll defaultConfig [65, 66, 10] bootState) = [65, 66, 10] ∧
    (∃ s' p', SerialRead_delim defaultConfig 1 (arriveAll defaultConfig [65, 66, 10] bootState)
        (fun _ => 0) 10 10 = .ok (s', p', 2) ∧ (List.range 3).map p' = [65, 66, 10]) ∧
    ¬ ∃ s' p', SerialRead_delim defaultConfig 1 (arriveAll defaultConfig [65, 66, 10] bootState)
        (fun _ => 0) 10 10 = .ok (s', p', 3) := by
  refine ⟨by decide, ⟨_, _, rfl, by decide⟩, ?_⟩
  rintro ⟨s', p', h⟩
  have h2 : ∃ s2 p2, SerialRead_delim defaultConfig 1
      (arriveAll defaultConfig [65, 66, 10] bootState) (fun _ => 0) 10 10
      = .ok (s2, p2, 2) := ⟨_, _, rfl⟩
  obtain ⟨s2, p2, h2⟩ := h2
  rw [h2] at h
  injection h with h
  injection h with _ h
  injection h with _ h
  exact absurd h (by decide)

/-- C6, as the code has it.  For every RX buffer content whose first
occurrence of the delimiter is among its first `lenMax` unread bytes (the
unread bytes are `pre ++ delim :: post` with `delim` not in `pre` and
`pre.length < lenMax`), `SerialRead_delim` returns, has stored the bytes up to
and including the delimiter in `pBuffer[0 .. pre.length]`, leaves the rest of
`pBuffer` and the bytes after the delimiter untouched, and returns the number
of bytes before the delimiter (the delimiter is stored but not counted). -/
theorem read_delim_returns_position (c : Config) (s : State)
    (hr : s.ser_rxReadHead < c.SER_RX_BUFFER_SIZE)
    (hw : s.ser_rxWriteHead < c.SER_RX_BUFFER_SIZE)
    (pre post : List Nat) (lenMax delim : Nat)
    (hu : rxUnread c s = pre ++ delim :: post) (hfirst : delim ∉ pre)
    (hlen : pre.length < lenMax) (fuel : Nat) (hfuel : 0 < fuel) (pBuffer : Nat → Nat) :
    ∃ s' p', SerialRead_delim c fuel s pBuffer lenMax delim = .ok (s', p', pre.length) ∧
      (List.range (pre.length + 1)).map p' = pre ++ [delim] ∧
      (∀ j, pre.length < j → p' j = pBuffer j) ∧
      rxUnread c s' = post := by
  obtain ⟨k, rfl⟩ : ∃ k, fuel = k + 1 := ⟨fuel - 1, by omega⟩
  obtain ⟨s', h1, -, -, h4⟩ :=
    read_delim_found c k lenMax delim pre post lenMax 0 s pBuffer hr hw hu hfirst hlen
  rw [Nat.zero_add] at h1
  refine ⟨s', _, h1, ?_, ?_, h4⟩
  · have := writeList_range (pre ++ [delim]) pBuffer
    simpa using this
  · intro j hj
    exact writeList_outside _ _ _ _ (Or.inr (by simp; omega))

theorem read_delim_returns_position_witness :
    (bootState.ser_rxReadHead < defaultConfig.SER_RX_BUFFER_SIZE ∧
      rxUnread defaultConfig (arriveAll defaultConfig [65, 66, 10, 67] bootState)
        = [65, 66] ++ 10 :: [67] ∧ 10 ∉ [65, 66] ∧ [65, 66].length < 10) ∧
    ∃ s' p', SerialRead_delim defaultConfig 1
        (arriveAll defaultConfig [65, 66, 10, 67] bootState) (fun _ => 0) 10 10
        = .ok (s', p', [65, 66].length) ∧
      (List.range ([65, 66].length + 1)).map p' = [65, 66] ++ [10] ∧
      (∀ j, [65, 66].length < j → p' j = (fun _ => 0) j) ∧
      rxUnread defaultConfig s' = [67] :=
  ⟨by decide, read_delim_returns_position defaultConfig
    (arriveAll defaultConfig [65, 66, 10, 67] bootState) (by decide) (by decide)
    [65, 66] [67] 10 10 (by decide) (by decide) (by decide) 1 (by decide) (fun _ => 0)⟩

/-- C7 (`read_until` is bounded).  For every `lenMax` and every RX buffer
state (heads in range): if the buffer holds at least `lenMax` unread bytes and
none of the first `lenMax` equals `delim`, `SerialRead_delim` returns `lenMax`
having dequeued exactly the first `lenMax` unread bytes and stored them in
order in `pBuffer[0..lenMax)`; and in every case, whether the call returns or
is still waiting for a byte, the bytes it dequeued are at most `lenMax` and
none of them except possibly the last equals `delim`. -/
theorem read_delim_bounded (c : Config) (s : State)
    (hr : s.ser_rxReadHead < c.SER_RX_BUFFER_SIZE)
    (hw : s.ser_rxWriteHead < c.SER_RX_BUFFER_SIZE)
    (lenMax delim fuel : Nat) (pBuffer : Nat → Nat) :
    (0 < fuel → lenMax ≤ (rxUnread c s).length → delim ∉ (rxUnread c s).take lenMax →
      ∃ s' p', SerialRead_delim c fuel s pBuffer lenMax delim = .ok (s', p', lenMax) ∧
        (List.range lenMax).map p' = (rxUnread c s).take lenMax ∧
        rxUnread c s' = (rxUnread c s).drop lenMax) ∧
    (∃ d, rxUnread c s
        = d ++ rxUnread c (finalState (SerialRead_delim c fuel s pBuffer lenMax delim)) ∧
      d.length ≤ lenMax ∧ delim ∉ d.dropLast) := by
  refine ⟨?_, read_delim_any c lenMax delim lenMax fuel 0 s pBuffer hr hw⟩
  intro hfuel hlen hnot
  obtain ⟨k, rfl⟩ : ∃ k, fuel = k + 1 := ⟨fuel - 1, by omega⟩
  have hl : ((rxUnread c s).take lenMax).length = lenMax := by
    rw [List.length_take]; omega
  obtain ⟨s', h1, -, -, h4⟩ := read_delim_bound c k lenMax delim
    ((rxUnread c s).take lenMax) ((rxUnread c s).drop lenMax) 0 s pBuffer hr hw
    (List.take_append_drop _ _).symm hnot
  rw [hl] at h1
  refine ⟨s', _, h1, ?_, h4⟩
  have := writeList_range ((rxUnread c s).take lenMax) pBuffer
  rwa [hl] at this

theorem read_delim_bounded_witness :
    (bootState.ser_rxReadHead < defaultConfig.SER_RX_BUFFER_SIZE ∧
      0 < 1 ∧
      3 ≤ (rxUnread defaultConfig (arriveAll defaultConfig [1, 2, 3, 4, 5] bootState)).length ∧
      9 ∉ (rxUnread defaultConfig (arriveAll defaultConfig [1, 2, 3, 4, 5] bootState)).take 3) ∧
    ∃ s' p', SerialRead_delim defaultConfig 1
        (arriveAll defaultConfig [1, 2, 3, 4, 5] bootState) (fun _ => 0) 3 9
        = .ok (s', p', 3) ∧
      (List.range 3).map p'
        = (rxUnread defaultConfig (arriveAll defaultConfig [1, 2, 3, 4, 5] bootState)).take 3 ∧
      rxUnread defaultConfig s'
        = (rxUnread defaultConfig (arriveAll defaultConfig [1, 2, 3, 4, 5] bootState)).drop 3 :=
  ⟨by decide, (read_delim_bounded defaultConfig
    (arriveAll defaultConfig [1, 2, 3, 4, 5] bootState) (by decide) (by decide)
    3 9 1 (fun _ => 0)).1 (by decide) (by decide) (by decide)⟩

theorem read_all_loop (c : Config) (fuel : Nat) :
    ∀ (k i : Nat) (s : State) (p : Nat → Nat),
    s.ser_rxReadHead < c.SER_RX_BUFFER_SIZE → s.ser_rxWriteHead < c.SER_RX_BUFFER_SIZE →
    ∃ s', SerialRead_all_loop c (fuel + 1) k i s p
        = .ok (s', writeList p i ((rxUnread c s).take k), i + min (rxUnread c s).length k) ∧
      s'.ser_rxReadHead < c.SER_RX_BUFFER_SIZE ∧ s'.ser_rxWriteHead < c.SER_RX_BUFFER_SIZE ∧
      rxUnread c s' = (rxUnread c s).drop k
  | 0, i, s, p, hr, hw => ⟨s, by simp [SerialRead_all_loop, writeList], hr, hw, rfl⟩
  | k + 1, i, s, p, hr, hw => by
    by_cases hne : s.ser_rxReadHead = s.ser_rxWriteHead
    · have hnil := (rxUnread_eq_nil_iff c s hr hw).2 hne
      refine ⟨s, ?_, hr, hw, by rw [hnil]; rfl⟩
      simp [SerialRead_all_loop, SerialPeek, hne, hnil, writeList]
    · obtain ⟨s1, h1, -, h2, h3, h4⟩ := rx_get c s fuel hr hw hne
      obtain ⟨s', k1, k2, k3, k4⟩ := read_all_loop c fuel k (i + 1) s1
        (upd p i (s.ser_rxBuffer s.ser_rxReadHead)) h2 h3
      refine ⟨s', ?_, k2, k3, by rw [h4, k4]; rfl⟩
      simp only [SerialRead_all_loop, SerialPeek, if_neg hne, h1]
      rw [if_pos (by decide), k1, h4]
      simp only [List.take_succ_cons, writeList, List.length_cons]
      rw [show i + min ((rxUnread c s1).length + 1) (k + 1)
        = i + 1 + min (rxUnread c s1).length k by omega]

/-- C8 (`read_all` drains without blocking).  For every RX buffer state (heads
in range) holding `n` unread bytes, with no byte arriving during the call, and
every `lenMax`, `SerialRead_all` returns (no pass of a wait loop is repeated),
its result is `min n lenMax`, the `min n lenMax` oldest unread bytes are stored
in FIFO order in `pBuffer[0 .. min n lenMax)`, the rest of `pBuffer` is
untouched, and the remaining `n - min n lenMax` bytes stay unread. -/
theorem read_all_drains (c : Config) (s : State)
    (hr : s.ser_rxReadHead < c.SER_RX_BUFFER_SIZE)
    (hw : s.ser_rxWriteHead < c.SER_RX_BUFFER_SIZE)
    (lenMax fuel : Nat) (hfuel : 0 < fuel) (pBuffer : Nat → Nat) :
    ∃ s' p', SerialRead_all c fuel s pBuffer lenMax
        = .ok (s', p', min (rxUnread c s).length lenMax) ∧
      (List.range (min (rxUnread c s).length lenMax)).map p'
        = (rxUnread c s).take (min (rxUnread c s).length lenMax) ∧
      (∀ j, min (rxUnread c s).length lenMax ≤ j → p' j = pBuffer j) ∧
      rxUnread c s' = (rxUnread c s).drop (min (rxUnread c s).length lenMax) ∧
      (rxUnread c s').length = (rxUnread c s).length - min (rxUnread c s).length lenMax := by
  obtain ⟨k, rfl⟩ : ∃ k, fuel = k + 1 := ⟨fuel - 1, by omega⟩
  obtain ⟨s', h1, -, -, h4⟩ := read_all_loop c k lenMax 0 s pBuffer hr hw
  rw [Nat.zero_add] at h1
  have ht : (rxUnread c s).take (min (rxUnread c s).length lenMax)
      = (rxUnread c s).take lenMax := by
    rw [Nat.min_comm, List.take_eq_take]
    simp
  have hd : (rxUnread c s).drop (min (rxUnread c s).length lenMax)
      = (rxUnread c s).drop lenMax := by
    rcases Nat.le_total (rxUnread c s).length lenMax with h | h
    · rw [Nat.min_eq_left h, List.drop_of_length_le h, List.drop_of_length_le (Nat.le_refl _)]
    · rw [Nat.min_eq_right h]
  have hl : ((rxUnread c s).take lenMax).length = min (rxUnread c s).length lenMax := by
    rw [List.length_take, Nat.min_comm]
  refine ⟨s', _, h1, ?_, ?_, by rw [h4, hd], ?_⟩
  · have := writeList_range ((rxUnread c s).take lenMax) pBuffer
    rw [hl] at this
    rw [this, ht]
  · intro j hj
    exact writeList_outside _ _ _ _ (Or.inr (by rw [hl]; omega))
  · rw [h4, List.length_drop]
    omega

theorem read_all_drains_witness :
    (bootState.ser_rxReadHead < defaultConfig.SER_RX_BUFFER_SIZE ∧ 0 < 1) ∧
    ∃ s' p', SerialRead_all defaultConfig 1
        (arriveAll defaultConfig [10, 20, 30, 40, 50] bootState) (fun _ => 0) 100
        = .ok (s', p', 5) ∧
      (List.range 5).map p' = [10, 20, 30, 40, 50] ∧
      rxUnread defaultConfig s' = [] :=
  ⟨by decide, by
    obtain ⟨s', p', h1, h2, -, h4, -⟩ := read_all_drains defaultConfig
      (arriveAll defaultConfig [10, 20, 30, 40, 50] bootState) (by decide) (by decide)
      100 1 (by decide) (fun _ => 0)
    have hu : rxUnread defaultConfig (arriveAll defaultConfig [10, 20, 30, 40, 50] bootState)
        = [10, 20, 30, 40, 50] := by decide
    rw [hu] at h1 h2 h4
    exact ⟨s', p', h1, h2, h4⟩⟩

/-! ## Delimiter-terminated writes -/
/-- The `do … while` of `SerialWrite_delim`, started at offset `pos` with the
next delimiter at an offset above `pos` exactly `n ≥ 1` further on, makes the
calls `ser_putByte(pByte[pos])`, …, `ser_putByte(pByte[pos + n - 1])`. -/
theorem write_delim_loop (c : Config) (fuel : Nat) (pByte : Nat → Nat) (delimiter : Nat) :
    ∀ (n pos scan : Nat) (s : State),
    (∀ j, pos < j → j < pos + (n + 1) → pByte j ≠ delimiter) →
    pByte (pos + (n + 1)) = delimiter → n + 1 ≤ scan →
    SerialWrite_delim_loop c fuel pByte delimiter scan pos s
      = putAll c fuel ((List.range' pos (n + 1)).map pByte) s
  | 0, pos, scan + 1, s, _, hd, _ => by
    simp only [SerialWrite_delim_loop, List.range', List.map_cons, List.map_nil, putAll]
    cases ser_putByte c fuel s (pByte pos) with
    | error e => rfl
    | ok s' =>
      simp only
      rw [if_neg (by simpa using hd)]
  | n + 1, pos, scan + 1, s, hne, hd, hs => by
    simp only [SerialWrite_delim_loop, List.range', List.map_cons, putAll]
    cases ser_putByte c fuel s (pByte pos) with
    | error e => rfl
    | ok s' =>
      simp only
      rw [if_pos (hne (pos + 1) (by omega) (by omega))]
      have := write_delim_loop c fuel pByte delimiter n (pos + 1) scan s'
        (fun j h1 h2 => hne j (by omega) (by omega))
        (by rw [← hd]; congr 1; omega) (by omega)
      rw [this]
      rfl

theorem write_delim_eq_putAll (c : Config) (fuel : Nat) (pByte : Nat → Nat)
    (delimiter m scan : Nat) (s : State) (hm : 1 ≤ m)
    (hne : ∀ j, 1 ≤ j → j < m → pByte j ≠ delimiter) (hd : pByte m = delimiter)
    (hs : m ≤ scan) :
    SerialWrite_delim c scan fuel s pByte delimiter
      = putAll c fuel ((List.range m).map pByte) s := by
  obtain ⟨n, rfl⟩ : ∃ n, m = n + 1 := ⟨m - 1, by omega⟩
  rw [SerialWrite_delim, List.range_eq_range']
  exact write_delim_loop c fuel pByte delimiter n 0 scan s
    (fun j h1 h2 => hne j (by omega) (by omega)) (by simpa using hd) hs

/-- C9 (`write_until` sends the prefix before the delimiter).  For every byte
sequence `p` whose first byte differs from the delimiter and in which the
delimiter first occurs at index `k` (so `k ≥ 1`), `SerialWrite_delim(p,
delimiter)` is exactly the `k` calls `ser_putByte(p[0])`, …,
`ser_putByte(p[k-1])` in that order, and the delimiter is not among the bytes
passed to `ser_putByte`. -/
theorem write_delim_sends_leading_bytes (c : Config) (fuel : Nat) (s : State) (pByte : Nat → Nat)
    (delimiter k scan : Nat) (h0 : pByte 0 ≠ delimiter)
    (hfirst : ∀ j, j < k → pByte j ≠ delimiter) (hk : pByte k = delimiter)
    (hscan : k ≤ scan) :
    1 ≤ k ∧
    SerialWrite_delim c scan fuel s pByte delimiter
      = putAll c fuel ((List.range k).map pByte) s ∧
    ((List.range k).map pByte).length = k ∧
    delimiter ∉ (List.range k).map pByte := by
  have hk1 : 1 ≤ k := by
    rcases Nat.eq_zero_or_pos k with h | h
    · subst h; exact absurd hk h0
    · exact h
  refine ⟨hk1, ?_, by simp, ?_⟩
  · exact write_delim_eq_putAll c fuel pByte delimiter k scan s hk1
      (fun j _ h2 => hfirst j h2) hk hscan
  · intro hmem
    obtain ⟨j, hj, hjd⟩ := List.mem_map.1 hmem
    exact hfirst j (List.mem_range.1 hj) hjd

theorem write_delim_sends_leading_bytes_witness :
    ((fun j => if j < 2 then 65 + j else 0) 0 ≠ 0 ∧
      (∀ j, j < 2 → (fun j => if j < 2 then 65 + j else 0) j ≠ 0) ∧
      (fun j => if j < 2 then 65 + j else 0) 2 = 0 ∧ 2 ≤ 5) ∧
    SerialWrite_delim defaultConfig 5 1 bootState (fun j => if j < 2 then 65 + j else 0) 0
      = putAll defaultConfig 1 [65, 66] bootState :=
  ⟨by decide, (write_delim_sends_leading_bytes defaultConfig 1 bootState
    (fun j => if j < 2 then 65 + j else 0) 0 2 5 (by decide) (by decide) (by decide)
    (by decide)).2.1⟩

/-- On an empty RX buffer the wait loop of `ser_getByte` never ends: after any
number of passes the routine is still waiting in the unchanged state. -/
theorem ser_getByte_empty (c : Config) (s : State)
    (h : s.ser_rxReadHead = s.ser_rxWriteHead) : ∀ fuel, ser_getByte c fuel s = .error s
  | 0 => rfl
  | fuel + 1 => by simp [ser_getByte, h, ser_getByte_empty c s h fuel]

/-- On a full TX buffer the wait loop of `ser_putByte` never ends. -/
theorem ser_putByte_full (c : Config) (s : State) (b : Nat)
    (h : (s.ser_txWriteHead + 1) % c.SER_TX_BUFFER_SIZE = s.ser_txReadHead) :
    ∀ fuel, ser_putByte c fuel s b = .error s
  | 0 => rfl
  | fuel + 1 => by simp [ser_putByte, h, ser_putByte_full c s b h fuel]

/-- C11 (`peek` is non-consuming).  For every state, `SerialPeek(value)`
returns 0 exactly when `ser_rxReadHead = ser_rxWriteHead` and 1 otherwise;
when it returns 1 and `value` is non-null, `*value` is the byte the next
`ser_getByte` returns; when it returns 0, `*value` keeps its content; a null
`value` stays null.  `SerialPeek` assigns no global variable and no buffer
slot, so it yields no new state: the `ser_getByte` that follows runs in the
very state `SerialPeek` was called in. -/
theorem peek_non_consuming (c : Config) (s : State) (value : Option Nat) (fuel : Nat) :
    ((SerialPeek s value).1 = 0 ↔ s.ser_rxReadHead = s.ser_rxWriteHead) ∧
    ((SerialPeek s value).1 = 1 ↔ s.ser_rxReadHead ≠ s.ser_rxWriteHead) ∧
    (s.ser_rxReadHead = s.ser_rxWriteHead → (SerialPeek s value).2 = value) ∧
    (s.ser_rxReadHead ≠ s.ser_rxWriteHead → ∀ v, ∃ s' b,
      ser_getByte c (fuel + 1) s = .ok (s', b) ∧ SerialPeek s (some v) = (1, some b)) ∧
    (SerialPeek s none).2 = none := by
  by_cases h : s.ser_rxReadHead = s.ser_rxWriteHead
  · simp [SerialPeek, h]
  · simp [SerialPeek, h, ser_getByte]

theorem peek_non_consuming_witness :
    (arriveAll defaultConfig [65, 66] bootState).ser_rxReadHead
      ≠ (arriveAll defaultConfig [65, 66] bootState).ser_rxWriteHead ∧
    ∃ s' b, ser_getByte defaultConfig 1 (arriveAll defaultConfig [65, 66] bootState)
        = .ok (s', b) ∧
      SerialPeek (arriveAll defaultConfig [65, 66] bootState) (some 0) = (1, some b) :=
  ⟨by decide, (peek_non_consuming defaultConfig (arriveAll defaultConfig [65, 66] bootState)
    (some 0) 0).2.2.2.1 (by decide) 0⟩

/-- `SerialBegin_baud` with a non-zero baud rate, unfolded. -/
theorem SerialBegin_baud_eq (c : Config) (b : Nat) (s : State) (hb : b ≠ 0) :
    SerialBegin_baud c b s = some { s with
      UBRR0 := ((c.F_CPU / 16 / b + 2 ^ 64 - 1) % 2 ^ 64) % 2 ^ 16
      ser_txReadHead := 0
      ser_txWriteHead := 0
      ser_rxReadHead := 0
      ser_rxWriteHead := 0
      UCSR0A := 0
      UCSR0B := 2 ^ RXCIE0 ||| 2 ^ TXCIE0 ||| 2 ^ RXEN0 ||| 2 ^ TXEN0
      UCSR0C := 2 ^ UCSZ00 ||| 2 ^ UCSZ01 } := by
  unfold SerialBegin_baud
  rw [if_neg hb]

/-- C12, the range as stated fails.  With the default `F_CPU`, baud rate 1
asks for the divisor 999999, which does not fit the `uint16_t ubrrValue`:
`UBRR0` receives 999999 modulo 65536, that is 16959. -/
theorem baud_divisor_wraps_at_one :
    16000000 / 16 / 1 - 1 = 999999 ∧
    (SerialBegin_baud defaultConfig 1 resetState).map (fun t => t.UBRR0) = some 16959 ∧
    (16959 : Nat) ≠ 999999 := by
  refine ⟨by decide, by decide, by decide⟩

/-- C12, as the code has it.  With `F_CPU = 16000000`, for every baud rate
`b` with `1 ≤ b ≤ 65535`, `SerialBegin_baud(b)` programs `UBRR0` with
`F_CPU / 16 / b - 1` (truncating division) narrowed to 16 bits, that is
reduced modulo `2 ^ 16`, and resets the four heads.  For `16 ≤ b` the value is
below `2 ^ 16` and the narrowing leaves it as it is; for `b ≤ 15` the value
exceeds 65535, so `UBRR0` receives it modulo 65536.  `SerialBegin()` programs
the value for 9600, which is 103. -/
theorem baud_divisor (c : Config) (hF : c.F_CPU = 16000000) (b : Nat) (hlo : 1 ≤ b)
    (hhi : b ≤ 65535) (s : State) :
    (∃ s', SerialBegin_baud c b s = some s' ∧
      s'.UBRR0 = (16000000 / 16 / b - 1) % 2 ^ 16 ∧
      (16 ≤ b → s'.UBRR0 = 16000000 / 16 / b - 1 ∧ 16000000 / 16 / b - 1 < 2 ^ 16) ∧
      (b ≤ 15 → 65535 < 16000000 / 16 / b - 1) ∧
      s'.ser_txReadHead = 0 ∧ s'.ser_txWriteHead = 0 ∧
      s'.ser_rxReadHead = 0 ∧ s'.ser_rxWriteHead = 0) ∧
    (∃ s', SerialBegin c s = some s' ∧ s'.UBRR0 = 103) := by
  have h2 : 1 ≤ 16000000 / 16 / b := by
    rw [Nat.le_div_iff_mul_le (by omega)]
    omega
  have h3 : 16000000 / 16 / b ≤ 1000000 := by
    have : 16000000 / 16 / b ≤ 16000000 / 16 := Nat.div_le_self _ _
    simpa using this
  have hU : ((c.F_CPU / 16 / b + 2 ^ 64 - 1) % 2 ^ 64) % 2 ^ 16
      = (16000000 / 16 / b - 1) % 2 ^ 16 := by
    simp only [hF]
    omega
  constructor
  · refine ⟨_, SerialBegin_baud_eq c b s (by omega), hU, ?_, ?_, rfl, rfl, rfl, rfl⟩
    · intro h16
      have h1 : 16000000 / 16 / b ≤ 62500 := by
        have : 16000000 / 16 / b ≤ 16000000 / 16 / 16 := Nat.div_le_div_left h16 (by decide)
        simpa using this
      refine ⟨?_, by omega⟩
      show ((c.F_CPU / 16 / b + 2 ^ 64 - 1) % 2 ^ 64) % 2 ^ 16 = 16000000 / 16 / b - 1
      rw [hU]
      omega
    · intro h15
      have h1 : 66666 ≤ 16000000 / 16 / b := by
        have : 16000000 / 16 / 15 ≤ 16000000 / 16 / b := Nat.div_le_div_left h15 (by omega)
        simpa using this
      omega
  · refine ⟨_, SerialBegin_baud_eq c 9600 s (by decide), ?_⟩
    simp only [hF]
    decide

theorem baud_divisor_witness :
    (defaultConfig.F_CPU = 16000000 ∧ 1 ≤ 15 ∧ 15 ≤ 65535 ∧ 16 ≤ 9600 ∧ 9600 ≤ 65535) ∧
    (∃ s', SerialBegin_baud defaultConfig 15 resetState = some s' ∧
      s'.UBRR0 = (16000000 / 16 / 15 - 1) % 2 ^ 16 ∧
      (16 ≤ 15 → s'.UBRR0 = 16000000 / 16 / 15 - 1 ∧ 16000000 / 16 / 15 - 1 < 2 ^ 16) ∧
      (15 ≤ 15 → 65535 < 16000000 / 16 / 15 - 1) ∧
      s'.ser_txReadHead = 0 ∧ s'.ser_txWriteHead = 0 ∧
      s'.ser_rxReadHead = 0 ∧ s'.ser_rxWriteHead = 0) ∧
    (∃ s', SerialBegin_baud defaultConfig 9600 resetState = some s' ∧
      s'.UBRR0 = (16000000 / 16 / 9600 - 1) % 2 ^ 16 ∧
      (16 ≤ 9600 → s'.UBRR0 = 16000000 / 16 / 9600 - 1 ∧
        16000000 / 16 / 9600 - 1 < 2 ^ 16) ∧
      (9600 ≤ 15 → 65535 < 16000000 / 16 / 9600 - 1) ∧
      s'.ser_txReadHead = 0 ∧ s'.ser_txWriteHead = 0 ∧
      s'.ser_rxReadHead = 0 ∧ s'.ser_rxWriteHead = 0) :=
  ⟨by decide,
    (baud_divisor defaultConfig rfl 15 (by decide) (by decide) resetState).1,
    (baud_divisor defaultConfig rfl 9600 (by decide) (by decide) resetState).1⟩

/-- With `UDRE0` clear, `ser_putByte` leaves the TX read head and the flag as
they are, whether it returns or keeps waiting. -/
theorem putByte_clear (c : Config) (s : State) (b : Nat) (hu : s.UDRE0 = false) :
    ∀ fuel, (stateOf (ser_putByte c fuel s b)).ser_txReadHead = s.ser_txReadHead ∧
      (stateOf (ser_putByte c fuel s b)).UDRE0 = false
  | 0 => ⟨rfl, hu⟩
  | fuel + 1 => by
    by_cases hf : (s.ser_txWriteHead + 1) % c.SER_TX_BUFFER_SIZE = s.ser_txReadHead
    · rw [ser_putByte_full c s b hf]
      exact ⟨rfl, hu⟩
    · rw [ser_putByte_succ c s b fuel hf, if_neg (by simp [hu])]
      exact ⟨rfl, hu⟩

theorem SerialWrite_loop_clear (c : Config) (fuel : Nat) (pByte : Nat → Nat) :
    ∀ (k i : Nat) (s : State), s.UDRE0 = false →
    (stateOf (SerialWrite_loop c fuel pByte k i s)).ser_txReadHead = s.ser_txReadHead
  | 0, _, _, _ => rfl
  | k + 1, i, s, hu => by
    have h := putByte_clear c s (pByte i) hu fuel
    simp only [SerialWrite_loop]
    cases hp : ser_putByte c fuel s (pByte i) with
    | error e =>
      rw [hp] at h
      exact h.1
    | ok s' =>
      rw [hp] at h
      simp only
      rw [SerialWrite_loop_clear c fuel pByte k (i + 1) s' h.2]
      exact h.1

theorem SerialWrite_delim_loop_clear (c : Config) (fuel : Nat) (pByte : Nat → Nat)
    (delimiter : Nat) : ∀ (scan pos : Nat) (s : State), s.UDRE0 = false →
    (stateOf (SerialWrite_delim_loop c fuel pByte delimiter scan pos s)).ser_txReadHead
      = s.ser_txReadHead
  | 0, _, _, _ => rfl
  | scan + 1, pos, s, hu => by
    have h := putByte_clear c s (pByte pos) hu fuel
    simp only [SerialWrite_delim_loop]
    cases hp : ser_putByte c fuel s (pByte pos) with
    | error e =>
      rw [hp] at h
      exact h.1
    | ok s' =>
      rw [hp] at h
      simp only
      by_cases hd : pByte (pos + 1) = delimiter
      · rw [if_neg (by simpa using hd)]
        exact h.1
      · rw [if_pos hd, SerialWrite_delim_loop_clear c fuel pByte delimiter scan (pos + 1) s' h.2]
        exact h.1

/-- C13, as stated it fails.  `ser_putByte` called on the freshly initialised
state with `UDRE0` set moves `ser_txReadHead` from 0 to 1 (it calls
`ser_writeByte` itself), and with four RX slots the RX interrupt that fills the
last free slot moves `ser_rxReadHead` from 0 to 1. -/
theorem foreground_put_moves_tx_read_head :
    bootState.UDRE0 = true ∧ bootState.ser_txReadHead = 0 ∧
    (stateOf (ser_putByte defaultConfig 1 bootState 88)).ser_txReadHead = 1 ∧
    (arriveAll ⟨16000000, 4, 4⟩ [1, 2, 3] bootState).ser_rxReadHead = 0 ∧
    (ser_readByte ⟨16000000, 4, 4⟩
      (arriveAll ⟨16000000, 4, 4⟩ [1, 2, 3] bootState)).ser_rxReadHead = 1 := by
  refine ⟨by decide, by decide, by decide, by decide, by decide⟩

/-- C13, as the code has it.  The write index of each buffer has a single
writer: `ser_getByte` leaves `ser_rxWriteHead` unchanged and `ser_writeByte`
leaves `ser_txWriteHead` unchanged.  The read indices are shared:
`ser_putByte` (and `SerialWrite`, `SerialWrite_delim` built on it) leaves
`ser_txReadHead` unchanged while `UDRE0` is clear, and with `UDRE0` set on a
buffer that is not full it advances `ser_txReadHead` by one modulo
`SER_TX_BUFFER_SIZE` through `ser_writeByte`; `ser_readByte` leaves
`ser_rxReadHead` unchanged unless the advanced write head meets it, in which
case it advances `ser_rxReadHead` by one modulo `SER_TX_BUFFER_SIZE`. -/
theorem head_writers (c : Config) (s : State) (fuel : Nat) :
    (s.UDRE0 = false → ∀ b,
      (stateOf (ser_putByte c fuel s b)).ser_txReadHead = s.ser_txReadHead) ∧
    (s.UDRE0 = false → ∀ pByte count,
      (stateOf (SerialWrite c fuel s pByte count)).ser_txReadHead = s.ser_txReadHead) ∧
    (s.UDRE0 = false → ∀ scan pByte delimiter,
      (stateOf (SerialWrite_delim c scan fuel s pByte delimiter)).ser_txReadHead
        = s.ser_txReadHead) ∧
    (s.UDRE0 = true → (s.ser_txWriteHead + 1) % c.SER_TX_BUFFER_SIZE ≠ s.ser_txReadHead →
      ∀ b, (stateOf (ser_putByte c (fuel + 1) s b)).ser_txReadHead
        = (s.ser_txReadHead + 1) % c.SER_TX_BUFFER_SIZE) ∧
    ((s.ser_rxWriteHead + 1) % c.SER_TX_BUFFER_SIZE ≠ s.ser_rxReadHead →
      (ser_readByte c s).ser_rxReadHead = s.ser_rxReadHead) ∧
    ((s.ser_rxWriteHead + 1) % c.SER_TX_BUFFER_SIZE = s.ser_rxReadHead →
      (ser_readByte c s).ser_rxReadHead = (s.ser_rxReadHead + 1) % c.SER_TX_BUFFER_SIZE) ∧
    (finalState (ser_getByte c fuel s)).ser_rxWriteHead = s.ser_rxWriteHead ∧
    (ser_writeByte c s).ser_txWriteHead = s.ser_txWriteHead := by
  refine ⟨fun hu b => (putByte_clear c s b hu fuel).1,
    fun hu p n => SerialWrite_loop_clear c fuel p n 0 s hu,
    fun hu scan p d => SerialWrite_delim_loop_clear c fuel p d scan 0 s hu, ?_, ?_, ?_, ?_, ?_⟩
  · intro hu hnf b
    rw [ser_putByte_succ c s b fuel hnf, if_pos hu]
    simp only [stateOf, ser_writeByte]
    rw [if_pos (fun h => hnf h.symm)]
  · intro h
    simp only [ser_readByte]
    rw [if_neg h]
  · intro h
    simp only [ser_readByte]
    rw [if_pos h]
  · by_cases he : s.ser_rxReadHead = s.ser_rxWriteHead
    · rw [ser_getByte_empty c s he]
      rfl
    · cases fuel with
      | zero => rfl
      | succ k => simp [ser_getByte, he, finalState]
  · unfold ser_writeByte
    split <;> rfl

theorem head_writers_witness :
    ((arriveAll ⟨16000000, 4, 4⟩ [1, 2, 3] bootState).ser_rxWriteHead + 1) % 4
      = (arriveAll ⟨16000000, 4, 4⟩ [1, 2, 3] bootState).ser_rxReadHead ∧
    (ser_readByte ⟨16000000, 4, 4⟩
      (arriveAll ⟨16000000, 4, 4⟩ [1, 2, 3] bootState)).ser_rxReadHead
      = ((arriveAll ⟨16000000, 4, 4⟩ [1, 2, 3] bootState).ser_rxReadHead + 1) % 4 :=
  ⟨by decide, (head_writers ⟨16000000, 4, 4⟩
    (arriveAll ⟨16000000, 4, 4⟩ [1, 2, 3] bootState) 1).2.2.2.2.2.1 (by decide)⟩

/-- C15 (full and empty are respected by blocking).  If the TX buffer is
full, then after any number `n` of passes of the wait loop of `ser_putByte`
the routine is still in the loop and the machine state is the one it started
in (no head and no buffer slot changed, the loop condition still holds, no
byte was accepted); if the RX buffer is empty, the same holds for the wait
loop of `ser_getByte` (no byte is returned); and `ser_writeByte` on an empty
TX buffer writes nothing to `UDR0` and returns the state unchanged. -/
theorem blocking_not_failing (c : Config) (s : State) :
    ((s.ser_txWriteHead + 1) % c.SER_TX_BUFFER_SIZE = s.ser_txReadHead →
      ∀ n b, ser_putByte c n s b = .error s) ∧
    (s.ser_rxReadHead = s.ser_rxWriteHead → ∀ n, ser_getByte c n s = .error s) ∧
    (s.ser_txReadHead = s.ser_txWriteHead → ser_writeByte c s = s) := by
  refine ⟨fun h n b => ser_putByte_full c s b h n, fun h n => ser_getByte_empty c s h n, ?_⟩
  intro h
  simp [ser_writeByte, h]

theorem blocking_not_failing_witness :
    (({ bootState with ser_txWriteHead := 15 } : State).ser_txWriteHead + 1)
        % defaultConfig.SER_TX_BUFFER_SIZE
      = ({ bootState with ser_txWriteHead := 15 } : State).ser_txReadHead ∧
    ∀ n b, ser_putByte defaultConfig n { bootState with ser_txWriteHead := 15 } b
      = .error { bootState with ser_txWriteHead := 15 } :=
  ⟨by decide, (blocking_not_failing defaultConfig { bootState with ser_txWriteHead := 15 }).1
    (by decide)⟩

/-! ## Loopback -/

theorem TxSame.trans {s t u : State} (h1 : TxSame s t) (h2 : TxSame t u) : TxSame s u :=
  ⟨h2.1.trans h1.1, h2.2.1.trans h1.2.1, h2.2.2.1.trans h1.2.2.1,
    h2.2.2.2.1.trans h1.2.2.2.1, h2.2.2.2.2.trans h1.2.2.2.2⟩

theorem TxSame.pending (c : Config) {s t : State} (h : TxSame s t) :
    txPending c t = txPending c s := by
  simp only [txPending, h.1, h.2.1, h.2.2.1]

theorem rx_vect_txSame (c : Config) (b : Nat) (s : State) : TxSame s (USART_RX_vect c b s) := by
  unfold USART_RX_vect ser_readByte
  simp only
  split <;> exact ⟨rfl, rfl, rfl, rfl, rfl⟩

theorem arriveAll_txSame (c : Config) : ∀ (bytes : List Nat) (s : State),
    TxSame s (arriveAll c bytes s)
  | [], _ => ⟨rfl, rfl, rfl, rfl, rfl⟩
  | b :: bs, s => (rx_vect_txSame c b s).trans (arriveAll_txSame c bs (USART_RX_vect c b s))

theorem ser_getByte_ok (c : Config) : ∀ (fuel : Nat) (s s' : State) (b : Nat),
    ser_getByte c fuel s = .ok (s', b) →
    s' = { s with ser_rxReadHead := (s.ser_rxReadHead + 1) % c.SER_RX_BUFFER_SIZE }
  | 0, s, s', b, h => by simp [ser_getByte] at h
  | fuel + 1, s, s', b, h => by
    by_cases he : s.ser_rxReadHead = s.ser_rxWriteHead
    · rw [ser_getByte_empty c s he] at h
      cases h
    · simp only [ser_getByte, if_neg he] at h
      injection h with h
      injection h with h1 h2
      exact h1.symm

theorem read_count_txSame (c : Config) (fuel : Nat) :
    ∀ (n i : Nat) (s : State) (p : Nat → Nat) (s' : State) (p' : Nat → Nat),
    SerialRead_count_loop c fuel n i s p = .ok (s', p') → TxSame s s'
  | 0, _, s, p, s', p', h => by
    simp only [SerialRead_count_loop] at h
    injection h with h
    injection h with h1 h2
    subst h1
    exact ⟨rfl, rfl, rfl, rfl, rfl⟩
  | n + 1, i, s, p, s', p', h => by
    simp only [SerialRead_count_loop] at h
    cases hg : ser_getByte c fuel s with
    | error e => rw [hg] at h; cases h
    | ok x =>
      obtain ⟨s1, b⟩ := x
      rw [hg] at h
      have h1 := ser_getByte_ok c fuel s s1 b hg
      have h2 := read_count_txSame c fuel n (i + 1) s1 _ s' p' h
      subst h1
      exact h2

/-- `ser_putByte` on an empty TX buffer of at least two slots with `UDRE0`
set: the byte goes straight to `UDR0`, the buffer is empty again and the
receive side is untouched. -/
theorem putByte_ready (c : Config) (s : State) (b fuel : Nat)
    (hcap : 1 < c.SER_TX_BUFFER_SIZE) (hw : s.ser_txWriteHead < c.SER_TX_BUFFER_SIZE)
    (hempty : s.ser_txReadHead = s.ser_txWriteHead) (hu : s.UDRE0 = true) :
    ∃ s', ser_putByte c (fuel + 1) s b = .ok s' ∧
      s'.ser_txReadHead = s'.ser_txWriteHead ∧
      s'.ser_txWriteHead < c.SER_TX_BUFFER_SIZE ∧
      s'.udr0Out = s.udr0Out ++ [b] ∧ s'.UDRE0 = true ∧ RxSame s s' := by
  have hnf : (s.ser_txWriteHead + 1) % c.SER_TX_BUFFER_SIZE ≠ s.ser_txReadHead := by
    rcases mod_cases (s.ser_txWriteHead + 1) c.SER_TX_BUFFER_SIZE (by omega)
      with ⟨h3, h4⟩ | ⟨h3, h4⟩ <;> omega
  have hne : s.ser_txWriteHead ≠ (s.ser_txWriteHead + 1) % c.SER_TX_BUFFER_SIZE :=
    fun h => hnf (hempty ▸ h.symm)
  refine ⟨_, ser_putByte_succ c s b fuel hnf, ?_⟩
  rw [if_pos hu]
  simp only [ser_writeByte, hempty, if_pos hne, upd, if_true, RxSame, and_self, true_and]
  exact ⟨Nat.mod_lt _ (by omega), hu, trivial⟩

/-- `SerialWrite` with the transmitter always ready, started on an empty TX
buffer: every byte goes straight to `UDR0`. -/
theorem write_ready (c : Config) (fuel : Nat) (pByte : Nat → Nat) :
    ∀ (k i : Nat) (s : State), (0 < k → 1 < c.SER_TX_BUFFER_SIZE) →
    s.ser_txWriteHead < c.SER_TX_BUFFER_SIZE → s.ser_txReadHead = s.ser_txWriteHead →
    s.UDRE0 = true →
    ∃ s', SerialWrite_loop c (fuel + 1) pByte k i s = .ok s' ∧
      s'.ser_txReadHead = s'.ser_txWriteHead ∧
      s'.ser_txWriteHead < c.SER_TX_BUFFER_SIZE ∧
      s'.udr0Out = s.udr0Out ++ (List.range' i k).map pByte ∧ RxSame s s'
  | 0, _, s, _, hw, he, _ => ⟨s, rfl, he, hw, by simp, rfl, rfl, rfl⟩
  | k + 1, i, s, hcap, hw, he, hu => by
    obtain ⟨s1, h1, h2, h3, h4, h5, h6⟩ :=
      putByte_ready c s (pByte i) fuel (hcap (by omega)) hw he hu
    obtain ⟨s', k1, k2, k3, k4, k5⟩ := write_ready c fuel pByte k (i + 1) s1
      (fun _ => hcap (by omega)) h3 h2 h5
    refine ⟨s', ?_, k2, k3, ?_, ?_⟩
    · simp only [SerialWrite_loop, h1]
      exact k1
    · rw [k4, h4]
      simp [List.range']
    · exact ⟨k5.1.trans h6.1, k5.2.1.trans h6.2.1, k5.2.2.trans h6.2.2⟩

/-- `SerialWrite` against the loopback hardware: the bytes written pile up,
in order, as unread bytes of the RX buffer. -/
theorem write_loopback (c : Config) (heq : c.SER_RX_BUFFER_SIZE = c.SER_TX_BUFFER_SIZE)
    (fuel : Nat) (pByte : Nat → Nat) :
    ∀ (k i : Nat) (s : State),
    s.ser_txWriteHead < c.SER_TX_BUFFER_SIZE → s.ser_txReadHead = s.ser_txWriteHead →
    s.ser_rxReadHead < c.SER_RX_BUFFER_SIZE → s.ser_rxWriteHead < c.SER_RX_BUFFER_SIZE →
    (rxUnread c s).length + k ≤ c.SER_RX_BUFFER_SIZE - 1 →
    ∃ s', SerialWrite_loopback_loop c (fuel + 1) pByte k i s = .ok s' ∧
      s'.ser_txReadHead = s'.ser_txWriteHead ∧
      s'.ser_txWriteHead < c.SER_TX_BUFFER_SIZE ∧
      s'.ser_rxReadHead < c.SER_RX_BUFFER_SIZE ∧ s'.ser_rxWriteHead < c.SER_RX_BUFFER_SIZE ∧
      rxUnread c s' = rxUnread c s ++ (List.range' i k).map pByte
  | 0, _, s, hw, he, hr, hrw, _ => ⟨s, rfl, he, hw, hr, hrw, by simp⟩
  | k + 1, i, s, hw, he, hr, hrw, hlen => by
    obtain ⟨s1, h1, h2, h3, h4, -, h6⟩ :=
      putByte_ready c { s with UDRE0 := true } (pByte i) fuel (by omega) hw he rfl
    have hlb : loopback c s.udr0Out.length s1 = USART_RX_vect c (pByte i) s1 := by
      have : s1.udr0Out.drop s.udr0Out.length = [pByte i] := by
        rw [h4]
        simp
      simp only [loopback, this, arriveAll, List.foldl]
    have hr1 : s1.ser_rxReadHead < c.SER_RX_BUFFER_SIZE := by rw [h6.2.1]; exact hr
    have hw1 : s1.ser_rxWriteHead < c.SER_RX_BUFFER_SIZE := by rw [h6.2.2]; exact hrw
    have hu1 : rxUnread c s1 = rxUnread c s := by
      simp only [rxUnread, h6.1, h6.2.1, h6.2.2]
    obtain ⟨a1, a2, a3⟩ := rx_arrive c heq s1 (pByte i) hr1 hw1
    rw [hu1, lastN_of_le (by simp; omega)] at a3
    have hts := rx_vect_txSame c (pByte i) s1
    obtain ⟨s', k1, k2, k3, k4, k5, k6⟩ := write_loopback c heq fuel pByte k (i + 1)
      (USART_RX_vect c (pByte i) s1) (by rw [hts.2.2.1]; exact h3)
      (by rw [hts.2.1, hts.2.2.1]; exact h2) a1 a2 (by rw [a3]; simp; omega)
    refine ⟨s', ?_, k2, k3, k4, k5, ?_⟩
    · simp only [SerialWrite_loopback_loop, h1, hlb]
      exact k1
    · rw [k6, a3]
      simp [List.range']

/-- Reading back `n` bytes from an RX buffer that holds exactly the `n` bytes
`l`, the TX buffer being empty. -/
theorem read_back (c : Config) (fuel : Nat) (t : State) (l : List Nat) (buf : Nat → Nat)
    (hr : t.ser_rxReadHead < c.SER_RX_BUFFER_SIZE)
    (hw : t.ser_rxWriteHead < c.SER_RX_BUFFER_SIZE)
    (htw : t.ser_txWriteHead < c.SER_TX_BUFFER_SIZE)
    (hte : t.ser_txReadHead = t.ser_txWriteHead)
    (hu : rxUnread c t = l) :
    ∃ s3 buf', SerialRead_count c (fuel + 1) t buf l.length = .ok (s3, buf') ∧
      (List.range l.length).map buf' = l ∧
      s3.ser_rxReadHead = s3.ser_rxWriteHead ∧ s3.ser_txReadHead = s3.ser_txWriteHead ∧
      rxUnread c s3 = [] ∧ txPending c s3 = [] := by
  obtain ⟨s3, h1, h2, h3, h4⟩ := read_count_loop c fuel l.length 0 t buf hr hw (by rw [hu])
  rw [hu, List.take_length] at h1
  rw [hu, List.drop_length] at h4
  have hts := read_count_txSame c (fuel + 1) l.length 0 t buf s3 _ h1
  have hte3 : s3.ser_txReadHead = s3.ser_txWriteHead := by
    rw [hts.2.1, hts.2.2.1]; exact hte
  refine ⟨s3, _, h1, writeList_range l buf, (rxUnread_eq_nil_iff c s3 h2 h3).1 h4, hte3, h4, ?_⟩
  rw [txPending, hte3]
  exact ringUnread_same _ _ _ (by rw [hts.2.2.1]; exact htw)

/-- C14 (loopback round trip).  With both buffer sizes equal to `cap > 0` (in
particular a power of two), the transmitter always ready (`UDRE0` set at every
`ser_putByte`) and every byte written to `UDR0` delivered back as one RX
interrupt, for every byte sequence `p[0..n)` with `n ≤ cap - 1`, starting from
the state `SerialBegin_baud` leaves: `SerialWrite(p, n)` followed by
`SerialRead_count(buf, n)` returns and leaves `buf[0..n) = p[0..n)` with both
buffers empty.  This holds both when the written bytes are received back after
`SerialWrite` has returned and when each byte is received back before the next
`ser_putByte`. -/
theorem loopback_round_trip (c : Config)
    (heq : c.SER_RX_BUFFER_SIZE = c.SER_TX_BUFFER_SIZE) (hcap : 0 < c.SER_RX_BUFFER_SIZE)
    (baud : Nat) (s0 s : State) (hbegin : SerialBegin_baud c baud s0 = some s)
    (pByte : Nat → Nat) (n : Nat) (hn : n ≤ c.SER_RX_BUFFER_SIZE - 1)
    (fuel : Nat) (hfuel : 0 < fuel) (buf : Nat → Nat) :
    (∃ s1 s3 buf', SerialWrite c fuel { s with UDRE0 := true } pByte n = .ok s1 ∧
      SerialRead_count c fuel (loopback c s.udr0Out.length s1) buf n = .ok (s3, buf') ∧
      (List.range n).map buf' = (List.range n).map pByte ∧
      s3.ser_rxReadHead = s3.ser_rxWriteHead ∧ s3.ser_txReadHead = s3.ser_txWriteHead ∧
      rxUnread c s3 = [] ∧ txPending c s3 = []) ∧
    (∃ s2 s3 buf', SerialWrite_loopback c fuel s pByte n = .ok s2 ∧
      SerialRead_count c fuel s2 buf n = .ok (s3, buf') ∧
      (List.range n).map buf' = (List.range n).map pByte ∧
      s3.ser_rxReadHead = s3.ser_rxWriteHead ∧ s3.ser_txReadHead = s3.ser_txWriteHead ∧
      rxUnread c s3 = [] ∧ txPending c s3 = []) := by
  obtain ⟨htr, htw, hrr, hrw, -⟩ := begin_heads c baud s0 s hbegin
  obtain ⟨k, rfl⟩ : ∃ k, fuel = k + 1 := ⟨fuel - 1, by omega⟩
  have hr : s.ser_rxReadHead < c.SER_RX_BUFFER_SIZE := by omega
  have hw : s.ser_rxWriteHead < c.SER_RX_BUFFER_SIZE := by omega
  have hnil : rxUnread c s = [] := (rxUnread_eq_nil_iff c s hr hw).2 (by omega)
  have hlen : ((List.range n).map pByte).length = n := by simp
  constructor
  · obtain ⟨s1, h1, h2, h3, h4, h5⟩ := write_ready c k pByte n 0 { s with UDRE0 := true }
      (fun _ => by omega) (show s.ser_txWriteHead < _ by omega)
      (show s.ser_txReadHead = s.ser_txWriteHead by omega) rfl
    rw [← List.range_eq_range'] at h4
    have hr1 : s1.ser_rxReadHead < c.SER_RX_BUFFER_SIZE := by rw [h5.2.1]; exact hr
    have hw1 : s1.ser_rxWriteHead < c.SER_RX_BUFFER_SIZE := by rw [h5.2.2]; exact hw
    have hu1 : rxUnread c s1 = [] := by
      rw [← hnil]
      simp only [rxUnread, h5.1, h5.2.1, h5.2.2]
    have hlb : loopback c s.udr0Out.length s1 = arriveAll c ((List.range n).map pByte) s1 := by
      have hd : s1.udr0Out.drop s.udr0Out.length = (List.range n).map pByte := by
        rw [h4]
        exact List.drop_left' rfl
      rw [loopback, hd]
    obtain ⟨a1, a2, a3⟩ := arriveAll_unread c heq ((List.range n).map pByte) s1 hr1 hw1
    rw [hu1, List.nil_append, lastN_of_le (by rw [hlen]; exact hn)] at a3
    have hts := arriveAll_txSame c ((List.range n).map pByte) s1
    obtain ⟨s3, buf', r1, r2, r3, r4, r5, r6⟩ := read_back c k
      (arriveAll c ((List.range n).map pByte) s1) ((List.range n).map pByte) buf a1 a2
      (by rw [hts.2.2.1]; exact h3) (by rw [hts.2.1, hts.2.2.1]; exact h2) a3
    rw [hlen] at r1 r2
    exact ⟨s1, s3, buf', h1, by rw [hlb]; exact r1, r2, r3, r4, r5, r6⟩
  · obtain ⟨s2, h1, h2, h3, h4, h5, h6⟩ := write_loopback c heq k pByte n 0 s
      (by omega) (by omega) hr hw (by rw [hnil]; simpa using hn)
    rw [hnil, List.nil_append, ← List.range_eq_range'] at h6
    obtain ⟨s3, buf', r1, r2, r3, r4, r5, r6⟩ := read_back c k s2
      ((List.range n).map pByte) buf h4 h5 h3 h2 h6
    rw [hlen] at r1 r2
    exact ⟨s2, s3, buf', h1, r1, r2, r3, r4, r5, r6⟩

theorem loopback_round_trip_witness :
    (defaultConfig.SER_RX_BUFFER_SIZE = defaultConfig.SER_TX_BUFFER_SIZE ∧
      0 < defaultConfig.SER_RX_BUFFER_SIZE ∧ 3 ≤ defaultConfig.SER_RX_BUFFER_SIZE - 1 ∧ 0 < 1) ∧
    ∃ s2 s3 buf', SerialWrite_loopback defaultConfig 1 bootState (fun j => 65 + j) 3 = .ok s2 ∧
      SerialRead_count defaultConfig 1 s2 (fun _ => 0) 3 = .ok (s3, buf') ∧
      (List.range 3).map buf' = (List.range 3).map (fun j => 65 + j) ∧
      s3.ser_rxReadHead = s3.ser_rxWriteHead ∧ s3.ser_txReadHead = s3.ser_txWriteHead ∧
      rxUnread defaultConfig s3 = [] ∧ txPending defaultConfig s3 = [] :=
  ⟨by decide, (loopback_round_trip defaultConfig rfl (by decide) 9600 resetState bootState rfl
    (fun j => 65 + j) 3 (by decide) 1 (by decide) (fun _ => 0)).2⟩

/-! ## The return value of the delimiter-terminated read -/

/-- What a returning run of the loop of `SerialRead_delim` has done: either
it used up its `k` passes without meeting the delimiter and returns `lenMax`,
or it returns the index of a pass. -/
theorem read_delim_ok (c : Config) (lenMax delim : Nat) :
    ∀ (k fuel i : Nat) (s : State) (p : Nat → Nat) (s' : State) (p' : Nat → Nat) (r : Nat),
    s.ser_rxReadHead < c.SER_RX_BUFFER_SIZE → s.ser_rxWriteHead < c.SER_RX_BUFFER_SIZE →
    SerialRead_delim_loop c fuel lenMax delim k i s p = .ok (s', p', r) →
    (r = lenMax ∧ ∃ d, rxUnread c s = d ++ rxUnread c s' ∧ d.length = k ∧ delim ∉ d) ∨
    (i ≤ r ∧ r < i + k)
  | 0, fuel, i, s, p, s', p', r, _, _, h => by
    simp only [SerialRead_delim_loop] at h
    injection h with h
    injection h with h1 h2
    injection h2 with h2 h3
    subst h1
    exact Or.inl ⟨h3.symm, [], rfl, rfl, by simp⟩
  | k + 1, 0, i, s, p, s', p', r, _, _, h => by
    simp [SerialRead_delim_loop, ser_getByte] at h
  | k + 1, fuel + 1, i, s, p, s', p', r, hr, hw, h => by
    by_cases hne : s.ser_rxReadHead = s.ser_rxWriteHead
    · simp [SerialRead_delim_loop, ser_getByte_empty c s hne] at h
    · obtain ⟨s1, h1, -, h2, h3, h4⟩ := rx_get c s fuel hr hw hne
      simp only [SerialRead_delim_loop, h1, upd, if_true] at h
      by_cases hx : s.ser_rxBuffer s.ser_rxReadHead = delim
      · rw [if_pos hx] at h
        injection h with h
        injection h with _ h
        injection h with _ h
        exact Or.inr ⟨by omega, by omega⟩
      · rw [if_neg hx] at h
        rcases read_delim_ok c lenMax delim k (fuel + 1) (i + 1) s1 _ s' p' r h2 h3 h with
          ⟨e1, d, e2, e3, e4⟩ | ⟨e1, e2⟩
        · refine Or.inl ⟨e1, s.ser_rxBuffer s.ser_rxReadHead :: d, ?_, by simp [e3], ?_⟩
          · rw [h4, e2]; rfl
          · intro hm
            rcases List.mem_cons.1 hm with hm | hm
            · exact hx hm.symm
            · exact e4 hm
        · exact Or.inr ⟨by omega, by omega⟩

/-- C20 (what the return value of `SerialRead_delim` means).  For every RX
buffer state (heads in range): if the delimiter first occurs at zero-based
position `i < lenMax` among the unread bytes, `SerialRead_delim` returns `i`,
having dequeued exactly `i + 1` bytes and stored them, delimiter included, in
`pBuffer[0..i]`; `SerialReadLine` and `SerialReadStr` return 0 when the RX
buffer is empty (state untouched) and also when the first unread byte is the
delimiter and `maxRead > 0` (one byte consumed); and when `SerialRead_delim`
returns `lenMax`, the buffer held at least `lenMax` unread bytes and none of
the first `lenMax` was the delimiter. -/
theorem read_delim_return_value (c : Config) (s : State)
    (hr : s.ser_rxReadHead < c.SER_RX_BUFFER_SIZE)
    (hw : s.ser_rxWriteHead < c.SER_RX_BUFFER_SIZE)
    (fuel : Nat) (hfuel : 0 < fuel) (pBuffer : Nat → Nat) (lenMax delim : Nat) :
    (∀ pre post, rxUnread c s = pre ++ delim :: post → delim ∉ pre → pre.length < lenMax →
      ∃ s' p', SerialRead_delim c fuel s pBuffer lenMax delim = .ok (s', p', pre.length) ∧
        (List.range (pre.length + 1)).map p' = pre ++ [delim] ∧ rxUnread c s' = post) ∧
    (s.ser_rxReadHead = s.ser_rxWriteHead →
      SerialReadLine c fuel s pBuffer lenMax = .ok (s, pBuffer, 0) ∧
      SerialReadStr c fuel s pBuffer lenMax = .ok (s, pBuffer, 0)) ∧
    (∀ post, rxUnread c s = 10 :: post → 0 < lenMax →
      ∃ s' p', SerialReadLine c fuel s pBuffer lenMax = .ok (s', p', 0) ∧
        p' 0 = 10 ∧ rxUnread c s' = post) ∧
    (∀ post, rxUnread c s = 0 :: post → 0 < lenMax →
      ∃ s' p', SerialReadStr c fuel s pBuffer lenMax = .ok (s', p', 0) ∧
        p' 0 = 0 ∧ rxUnread c s' = post) ∧
    (∀ s' p', SerialRead_delim c fuel s pBuffer lenMax delim = .ok (s', p', lenMax) →
      lenMax ≤ (rxUnread c s).length ∧ delim ∉ (rxUnread c s).take lenMax) := by
  obtain ⟨k, rfl⟩ : ∃ k, fuel = k + 1 := ⟨fuel - 1, by omega⟩
  have hfound : ∀ (d : Nat) (pre post : List Nat), rxUnread c s = pre ++ d :: post →
      d ∉ pre → pre.length < lenMax →
      ∃ s' p', SerialRead_delim c (k + 1) s pBuffer lenMax d = .ok (s', p', pre.length) ∧
        (List.range (pre.length + 1)).map p' = pre ++ [d] ∧ rxUnread c s' = post := by
    intro d pre post hu hpre hlen
    obtain ⟨s', h1, -, -, h4⟩ :=
      read_delim_found c k lenMax d pre post lenMax 0 s pBuffer hr hw hu hpre hlen
    rw [Nat.zero_add] at h1
    refine ⟨s', _, h1, ?_, h4⟩
    have := writeList_range (pre ++ [d]) pBuffer
    simpa using this
  have hfirst : ∀ (d : Nat) (post : List Nat), rxUnread c s = d :: post → 0 < lenMax →
      (SerialPeek s none).1 ≠ 0 ∧
      ∃ s' p', SerialRead_delim c (k + 1) s pBuffer lenMax d = .ok (s', p', 0) ∧
        p' 0 = d ∧ rxUnread c s' = post := by
    intro d post hu hl
    have hne := rx_nonempty_of_cons c s d post hr hw hu
    obtain ⟨s', p', h1, h2, h3⟩ := hfound d [] post hu (by simp) hl
    refine ⟨by simp [SerialPeek, hne], s', p', h1, ?_, h3⟩
    simpa [List.range_succ] using h2
  refine ⟨hfound delim, ?_, ?_, ?_, ?_⟩
  · intro he
    simp [SerialReadLine, SerialReadStr, SerialPeek, he]
  · intro post hu hl
    obtain ⟨hp, s', p', h1, h2, h3⟩ := hfirst 10 post hu hl
    refine ⟨s', p', ?_, h2, h3⟩
    simp only [SerialReadLine, if_pos hp, h1]
    rfl
  · intro post hu hl
    obtain ⟨hp, s', p', h1, h2, h3⟩ := hfirst 0 post hu hl
    refine ⟨s', p', ?_, h2, h3⟩
    simp only [SerialReadStr, if_pos hp, h1]
    rfl
  · intro s' p' h
    rcases read_delim_ok c lenMax delim lenMax (k + 1) 0 s pBuffer s' p' lenMax hr hw h with
      ⟨-, d, e2, e3, e4⟩ | ⟨-, e2⟩
    · constructor
      · rw [e2, List.length_append, e3]
        omega
      · rw [e2, ← e3, List.take_left]
        exact e4
    · omega

theorem read_delim_return_value_witness :
    ((arriveAll defaultConfig [10, 65] bootState).ser_rxReadHead
        < defaultConfig.SER_RX_BUFFER_SIZE ∧
      (arriveAll defaultConfig [10, 65] bootState).ser_rxWriteHead
        < defaultConfig.SER_RX_BUFFER_SIZE ∧ 0 < 1 ∧
      rxUnread defaultConfig (arriveAll defaultConfig [10, 65] bootState) = 10 :: [65] ∧
      0 < 8) ∧
    ∃ s' p', SerialReadLine defaultConfig 1 (arriveAll defaultConfig [10, 65] bootState)
        (fun _ => 0) 8 = .ok (s', p', 0) ∧
      p' 0 = 10 ∧ rxUnread defaultConfig s' = [65] :=
  ⟨by decide, (read_delim_return_value defaultConfig (arriveAll defaultConfig [10, 65] bootState)
    (by decide) (by decide) 1 (by decide) (fun _ => 0) 8 10).2.2.1 [65] (by decide)
    (by decide)⟩

/-! ## RX interrupts between the two atomic blocks of `ser_getByte` -/

/-- Without an interrupt between its two atomic blocks, `ser_getByte` is the
snapshot followed by the commit. -/
theorem ser_getByte_two_steps (c : Config) (fuel : Nat) (s : State) :
    ser_getByte c (fuel + 1) s =
      match ser_getByte_snapshot s with
      | none => ser_getByte c fuel s
      | some x => .ok (ser_getByte_commit c x.2 s) := by
  by_cases h : s.ser_rxReadHead = s.ser_rxWriteHead
  · simp [ser_getByte, ser_getByte_snapshot, h]
  · simp [ser_getByte, ser_getByte_snapshot, ser_getByte_commit, h]

/-- C19, evaluated.  Default configuration (16 slots).  One byte, 1, is
unread when `ser_getByte` takes its snapshot (`rHead = 0`, `wHead = 1`).
Sixteen RX interrupts delivering 2, …, 17 then run before the commit; they
leave the fifteen newest bytes 3, …, 17 unread, as drop-oldest prescribes.  The
commit returns 17, the newest byte, and sets the read head to 1, which is the
write head: the buffer is empty and the bytes 3, …, 16 are lost. -/
theorem getByte_commit_after_overflow :
    rxUnread defaultConfig (arriveAll defaultConfig [1] bootState) = [1] ∧
    ser_getByte_snapshot (arriveAll defaultConfig [1] bootState) = some (1, 0) ∧
    rxUnread defaultConfig
      (arriveAll defaultConfig [2, 3, 4, 5, 6, 7, 8, 9, 10, 11, 12, 13, 14, 15, 16, 17]
        (arriveAll defaultConfig [1] bootState))
      = [3, 4, 5, 6, 7, 8, 9, 10, 11, 12, 13, 14, 15, 16, 17] ∧
    (ser_getByte_commit defaultConfig 0
      (arriveAll defaultConfig [2, 3, 4, 5, 6, 7, 8, 9, 10, 11, 12, 13, 14, 15, 16, 17]
        (arriveAll defaultConfig [1] bootState))).2 = 17 ∧
    rxUnread defaultConfig (ser_getByte_commit defaultConfig 0
      (arriveAll defaultConfig [2, 3, 4, 5, 6, 7, 8, 9, 10, 11, 12, 13, 14, 15, 16, 17]
        (arriveAll defaultConfig [1] bootState))).1 = [] := by
  refine ⟨by decide, by decide, by decide, by decide, by decide⟩

/-! ## Number formatting -/

/-- C16, evaluated.  For `-10000` the five digits fill `buffer[0..4]`,
`sser_uiToChar` leaves `pos` at index -1, and `SerialPrintInt` stores `'-'`
there, one byte below the 6-byte buffer; the same happens for `-32768`. -/
theorem print_int_minus_below_buffer :
    (SerialPrintInt_format (fun _ => 0) (-10000)).map (fun r => r.2) = some (-1) ∧
    (SerialPrintInt_format (fun _ => 0) (-10000)).map (fun r => r.1 (-1)) = some 45 ∧
    ¬ ((0 : Int) ≤ -1 ∧ (-1 : Int) ≤ 5) ∧
    (SerialPrintInt_format (fun _ => 0) (-32768)).map (fun r => r.2) = some (-1) ∧
    (SerialPrintInt_format (fun _ => 0) (-32768)).map (fun r => r.1 (-1)) = some 45 := by
  refine ⟨by decide, by decide, by decide, by decide, by decide⟩

theorem SerialWrite_loop_eq_putAll (c : Config) (fuel : Nat) (pByte : Nat → Nat) :
    ∀ (k i : Nat) (s : State),
    SerialWrite_loop c fuel pByte k i s = putAll c fuel ((List.range' i k).map pByte) s
  | 0, _, _ => rfl
  | k + 1, i, s => by
    simp only [SerialWrite_loop, List.range', List.map_cons, putAll]
    cases ser_putByte c fuel s (pByte i) with
    | error e => rfl
    | ok s' => exact SerialWrite_loop_eq_putAll c fuel pByte k (i + 1) s'

set_option maxRecDepth 100000 in
theorem hex_nibbles : ∀ b : Fin 256,
    isHexChar ((if SSER_4BIT_HI b.val < 10 then SSER_4BIT_HI b.val + 48
      else SSER_4BIT_HI b.val - 10 + 65) % 256) = true ∧
    isHexChar ((if SSER_4BIT_LO b.val < 10 then SSER_4BIT_LO b.val + 48
      else SSER_4BIT_LO b.val - 10 + 65) % 256) = true ∧
    16 * hexValue ((if SSER_4BIT_HI b.val < 10 then SSER_4BIT_HI b.val + 48
        else SSER_4BIT_HI b.val - 10 + 65) % 256)
      + hexValue ((if SSER_4BIT_LO b.val < 10 then SSER_4BIT_LO b.val + 48
        else SSER_4BIT_LO b.val - 10 + 65) % 256) = b.val := by
  decide

/-- C18 (`SerialPrintHex` prints a byte as hex).  For every byte value
(bit pattern 0..255, whatever the signedness of `char`), `SerialPrintHex`
makes exactly the four calls `ser_putByte('0')`, `ser_putByte('x')`,
`ser_putByte(h)`, `ser_putByte(l)` through `SSER_WRITE_COUNT`, where `h` and
`l` are characters of `0`-`9` or upper-case `A`-`F` for the upper and the lower
nibble, so that `16 * value(h) + value(l)` is the byte as an unsigned value. -/
theorem print_hex_digits (c : Config) (fuel : Nat) (s : State) (byte : Nat)
    (hbyte : byte < 256) :
    ∃ h l, SerialPrintHex c fuel s byte = putAll c fuel [48, 120, h, l] s ∧
      isHexChar h = true ∧ isHexChar l = true ∧ 16 * hexValue h + hexValue l = byte ∧
      hexValue h = byte / 16 ∧ hexValue l = byte % 16 := by
  obtain ⟨h1, h2, h3⟩ := hex_nibbles ⟨byte, hbyte⟩
  simp only at h1 h2 h3
  have hh : hexValue ((if SSER_4BIT_HI byte < 10 then SSER_4BIT_HI byte + 48
      else SSER_4BIT_HI byte - 10 + 65) % 256) < 16 := by
    unfold hexValue
    have : SSER_4BIT_HI byte < 16 := by
      unfold SSER_4BIT_HI
      have := @Nat.and_le_right byte 0xF0
      rw [Nat.shiftRight_eq_div_pow]
      omega
    split <;> split <;> omega
  have hl : hexValue ((if SSER_4BIT_LO byte < 10 then SSER_4BIT_LO byte + 48
      else SSER_4BIT_LO byte - 10 + 65) % 256) < 16 := by
    unfold hexValue
    have : SSER_4BIT_LO byte < 16 := by
      unfold SSER_4BIT_LO
      have := @Nat.and_le_right byte 0x0F
      omega
    split <;> split <;> omega
  refine ⟨_, _, ?_, h1, h2, h3, by omega, by omega⟩
  simp [SerialPrintHex, SerialWrite, SerialWrite_loop_eq_putAll, List.range', sser_4bitChar,
    updI]

theorem print_hex_digits_witness :
    (0xAF < 256) ∧
    ∃ h l, SerialPrintHex defaultConfig 1 bootState 0xAF
        = putAll defaultConfig 1 [48, 120, h, l] bootState ∧
      isHexChar h = true ∧ isHexChar l = true ∧ 16 * hexValue h + hexValue l = 0xAF ∧
      hexValue h = 0xAF / 16 ∧ hexValue l = 0xAF % 16 :=
  ⟨by decide, print_hex_digits defaultConfig 1 bootState 0xAF (by decide)⟩

theorem uiChars_length_pos (fuel n : Nat) : 0 < (uiChars (fuel + 1) n).length := by
  simp [uiChars]

theorem uiChars_length_le : ∀ (fuel n k : Nat), n < 10 ^ (k + 1) →
    (uiChars fuel n).length ≤ k + 1
  | 0, _, _, _ => by simp [uiChars]
  | fuel + 1, n, 0, h => by
    have : n / 10 = 0 := by omega
    simp [uiChars, this]
  | fuel + 1, n, k + 1, h => by
    by_cases hz : n / 10 = 0
    · simp [uiChars, hz]
    · have hlt : n / 10 < 10 ^ (k + 1) := by
        rw [Nat.div_lt_iff_lt_mul (by decide)]
        rw [Nat.pow_succ] at h
        exact h
      have := uiChars_length_le fuel (n / 10) k hlt
      simp only [uiChars, if_pos hz, List.length_append, List.length_singleton]
      omega

theorem uiChars_digits : ∀ (fuel n : Nat), ∀ ch ∈ uiChars fuel n, 48 ≤ ch ∧ ch ≤ 57
  | 0, _, ch, h => by simp [uiChars] at h
  | fuel + 1, n, ch, h => by
    simp only [uiChars, List.mem_append, List.mem_singleton] at h
    rcases h with h | h
    · split at h
      · exact uiChars_digits fuel (n / 10) ch h
      · simp at h
    · omega

theorem decimalValue_snoc (l : List Nat) (ch : Nat) :
    decimalValue (l ++ [ch]) = 10 * decimalValue l + (ch - 48) := by
  simp [decimalValue, List.foldl_append]

theorem uiChars_value : ∀ (fuel n : Nat), n < 10 ^ fuel → decimalValue (uiChars fuel n) = n
  | 0, n, h => by
    have : n = 0 := by simpa using h
    subst this
    rfl
  | fuel + 1, n, h => by
    rw [uiChars, decimalValue_snoc]
    by_cases hz : n / 10 = 0
    · rw [if_neg (by simpa using hz)]
      simp only [decimalValue, List.foldl_nil]
      omega
    · have hlt : n / 10 < 10 ^ fuel := by
        rw [Nat.div_lt_iff_lt_mul (by decide)]
        rw [Nat.pow_succ] at h
        exact h
      rw [if_pos hz, uiChars_value fuel (n / 10) hlt]
      omega

theorem uiChars_leading : ∀ (fuel n : Nat), n < 10 ^ fuel → n ≠ 0 →
    ∃ d rest, uiChars fuel n = d :: rest ∧ d ≠ 48
  | 0, n, h, hn => by
    have : n = 0 := by simpa using h
    exact absurd this hn
  | fuel + 1, n, h, hn => by
    by_cases hz : n / 10 = 0
    · refine ⟨n % 10 + 48, [], by simp [uiChars, hz], by omega⟩
    · have hlt : n / 10 < 10 ^ fuel := by
        rw [Nat.div_lt_iff_lt_mul (by decide)]
        rw [Nat.pow_succ] at h
        exact h
      obtain ⟨d, rest, h1, h2⟩ := uiChars_leading fuel (n / 10) hlt hz
      exact ⟨d, rest ++ [n % 10 + 48], by simp [uiChars, hz, h1], h2⟩

theorem sser_uiToChar_ten (fuel n : Nat) (mem : Int → Nat) (p : Int) :
    sser_uiToChar (fuel + 1) n 10 mem p =
      if n / 10 ≠ 0 then sser_uiToChar fuel (n / 10) 10 (updI mem p (n % 10 + 48)) (p - 1)
      else some (updI mem p (n % 10 + 48), p - 1) := by
  have ho : n - 10 * (n / 10) = n % 10 := by omega
  have hc : (if n % 10 % 256 < 10 then n % 10 % 256 + 48 else n % 10 % 256 - 10 + 65) % 256
      = n % 10 + 48 := by
    have : n % 10 % 256 = n % 10 := by omega
    rw [this, if_pos (by omega)]
    omega
  simp only [sser_uiToChar, sser_4bitChar, ho, hc]
  rw [if_neg (by decide)]

/-- The memory `sser_uiToChar` leaves in base 10: the digit characters of
`n` end at `p`, `*ppBuffer` points just below the first of them, and no other
byte changed. -/
theorem sser_uiToChar_mem : ∀ (fuel n : Nat) (mem : Int → Nat) (p : Int),
    n < 10 ^ (fuel + 1) →
    ∃ mem', sser_uiToChar (fuel + 1) n 10 mem p
        = some (mem', p - (uiChars (fuel + 1) n).length) ∧
      (List.range (uiChars (fuel + 1) n).length).map
        (fun j : Nat => mem' (p - (uiChars (fuel + 1) n).length + 1 + j))
        = uiChars (fuel + 1) n ∧
      ∀ x : Int, (x ≤ p - (uiChars (fuel + 1) n).length ∨ p < x) → mem' x = mem x
  | 0, n, mem, p, h => by
    have hz : n / 10 = 0 := by omega
    rw [sser_uiToChar_ten, if_neg (by simpa using hz)]
    have hu : uiChars (0 + 1) n = [n % 10 + 48] := by simp [uiChars, hz]
    rw [hu]
    refine ⟨_, rfl, ?_, ?_⟩
    · simp [updI, List.range_succ]
    · intro x hx
      simp only [List.length_singleton, Nat.cast_one] at hx
      simp only [updI]
      rw [if_neg (by omega)]
  | fuel + 1, n, mem, p, h => by
    by_cases hz : n / 10 = 0
    · rw [sser_uiToChar_ten, if_neg (by simpa using hz)]
      have hu : uiChars (fuel + 1 + 1) n = [n % 10 + 48] := by simp [uiChars, hz]
      rw [hu]
      refine ⟨_, rfl, ?_, ?_⟩
      · simp [updI, List.range_succ]
      · intro x hx
        simp only [List.length_singleton, Nat.cast_one] at hx
        simp only [updI]
        rw [if_neg (by omega)]
    · have hlt : n / 10 < 10 ^ (fuel + 1) := by
        rw [Nat.div_lt_iff_lt_mul (by decide)]
        rw [Nat.pow_succ] at h
        exact h
      obtain ⟨mem', h1, h2, h3⟩ :=
        sser_uiToChar_mem fuel (n / 10) (updI mem p (n % 10 + 48)) (p - 1) hlt
      have hu : uiChars (fuel + 1 + 1) n = uiChars (fuel + 1) (n / 10) ++ [n % 10 + 48] := by
        rw [uiChars, if_pos hz]
      have hlen : ((uiChars (fuel + 1 + 1) n).length : Int)
          = (uiChars (fuel + 1) (n / 10)).length + 1 := by
        rw [hu]; simp
      rw [sser_uiToChar_ten, if_pos hz, h1]
      refine ⟨mem', ?_, ?_, ?_⟩
      · rw [hlen]
        congr 2
        omega
      · rw [hu, List.length_append, List.length_singleton, List.range_succ, List.map_append,
          List.map_singleton]
        congr 1
        · refine Eq.trans ?_ h2
          apply List.map_congr_left
          intro j _
          congr 1
          push_cast
          omega
        · have := h3 p (Or.inr (by omega))
          have hidx : p - ((uiChars (fuel + 1) (n / 10)).length + 1 : Nat) + 1
              + ((uiChars (fuel + 1) (n / 10)).length : Nat) = p := by
            push_cast
            omega
          rw [hidx, this]
          simp [updI]
      · intro x hx
        rw [hlen] at hx
        rw [h3 x (by omega)]
        simp only [updI]
        rw [if_neg (by omega)]

/-- C17 (`SerialPrintUInt` prints decimal).  For every `uint16_t` input the
bytes `SerialPrintUInt` passes to `ser_putByte` through `SSER_WRITE_DELIM`
(the bytes from `pos + 1` up to the first `0x00`, which is `buffer[5]`) are
the canonical base-10 representation of the input: 1 to 5 ASCII digits, the
single digit `'0'` for 0 and no leading `'0'` otherwise, whose value read back
as a decimal number is the input. -/
theorem print_uint_decimal (c : Config) (scan fuel : Nat) (s : State) (stack : Int → Nat)
    (input : Nat) (hin : input < 65536) (hscan : 5 ≤ scan) :
    ∃ out, SerialPrintUInt c scan fuel s stack input = putAll c fuel out s ∧
      1 ≤ out.length ∧ out.length ≤ 5 ∧ (∀ ch ∈ out, 48 ≤ ch ∧ ch ≤ 57) ∧
      (input = 0 → out = [48]) ∧ (input ≠ 0 → out.head? ≠ some 48) ∧
      decimalValue out = input := by
  have h16 : input < 10 ^ (15 + 1) := by
    have : (65536 : Nat) < 10 ^ (15 + 1) := by decide
    omega
  obtain ⟨mem', h1, h2, h3⟩ := sser_uiToChar_mem 15 input (printBuffer stack) 4 h16
  have hpos : 1 ≤ (uiChars 16 input).length := uiChars_length_pos 15 input
  have hle : (uiChars 16 input).length ≤ 5 :=
    uiChars_length_le 16 input 4 (by
      have : (65536 : Nat) < 10 ^ (4 + 1) := by decide
      omega)
  have hdig := uiChars_digits 16 input
  refine ⟨uiChars 16 input, ?_, hpos, hle, hdig, ?_, ?_, uiChars_value 16 input h16⟩
  · have hmem : ∀ j, j < (uiChars 16 input).length →
        mem' (4 - ((uiChars 16 input).length : Int) + 1 + (j : Int)) ∈ uiChars 16 input := by
      intro j hj
      have hm : mem' (4 - ((uiChars 16 input).length : Int) + 1 + (j : Int)) ∈
          (List.range (uiChars 16 input).length).map
            (fun j : Nat => mem' (4 - ((uiChars 16 input).length : Int) + 1 + (j : Int))) :=
        List.mem_map.2 ⟨j, List.mem_range.2 hj, rfl⟩
      rw [h2] at hm
      exact hm
    have hend : mem' (4 - ((uiChars 16 input).length : Int) + 1
        + (((uiChars 16 input).length : Nat) : Int)) = 0 := by
      have : (4 : Int) - ((uiChars 16 input).length : Int) + 1
          + (((uiChars 16 input).length : Nat) : Int) = 5 := by omega
      rw [this, h3 5 (Or.inr (by decide))]
      rfl
    simp only [SerialPrintUInt]
    rw [h1]
    simp only
    have hne : ∀ j, 1 ≤ j → j < (uiChars 16 input).length →
        (fun j : Nat => mem' (4 - ((uiChars 16 input).length : Int) + 1 + (j : Int))) j
          ≠ 0 := by
      intro j _ hj h0
      have := hdig _ (hmem j hj)
      simp only at h0
      omega
    rw [write_delim_eq_putAll c fuel
      (fun j : Nat => mem' (4 - ((uiChars 16 input).length : Int) + 1 + (j : Int))) 0
      (uiChars 16 input).length scan s hpos hne hend (by omega), h2]
  · intro h0
    subst h0
    rfl
  · intro hn hh
    obtain ⟨d, rest, e1, e2⟩ := uiChars_leading 16 input h16 hn
    rw [e1] at hh
    simp only [List.head?_cons, Option.some.injEq] at hh
    exact e2 hh

theorem print_uint_decimal_witness :
    (65535 < 65536 ∧ 5 ≤ 8) ∧
    ∃ out, SerialPrintUInt defaultConfig 8 1 bootState (fun _ => 7) 65535
        = putAll defaultConfig 1 out bootState ∧
      1 ≤ out.length ∧ out.length ≤ 5 ∧ (∀ ch ∈ out, 48 ≤ ch ∧ ch ≤ 57) ∧
      (65535 = 0 → out = [48]) ∧ (65535 ≠ 0 → out.head? ≠ some 48) ∧
      decimalValue out = 65535 :=
  ⟨by decide, print_uint_decimal defaultConfig 8 1 bootState (fun _ => 7) 65535 (by decide)
    (by decide)⟩

end OnlySerial
